import Mathlib

/-!
# Verification of the `se-risk` simulation/decision engine

Shallow embedding of the repository's core:

* `hunt/game.py` — `Decision`, `Result`, `DesignGame.get_payoff`,
  `DesignGame.play`, `InvalidDecisionError`;
* `hunt/tournament.py` — `Tournament.run`;
* `players_new.py` — `RiskAwareRDplayer.get_decision` (risk-dominance policy)
  and `RiskAwareEUplayer.get_decision` (expected-utility policy).

Python floats are modelled by the exact extended domain `EF` (a rational,
`nan`, or a signed infinity) with IEEE-754 rules for the operations the code
performs (`nan` propagates and is incomparable, division by zero produces a
signed infinity, `0/0`, `inf - inf`, `inf * 0` and `inf/inf` produce `nan`).
Rounding is not modelled: all claims under test are about exact structural
behaviour, not float error.

The risk-dominance index `0.5*log r₁ + 0.5*log r₂` is carried exactly in the
symbolic log-domain `LogV` (see its doc comment); the code only ever observes
a risk-dominance value through `< 0` comparisons and NaN-ness, both of which
`LogV` decides exactly.
-/

/-- Exact model of a Python/NumPy float value: `nan`, `-inf`, a finite
(rational) value, or `+inf`.  Finite values are exact rationals, so float
rounding is intentionally not modelled. -/
inductive EF where
  | nan : EF
  | ninf : EF
  | fin (q : ℚ) : EF
  | pinf : EF
deriving DecidableEq, Repr

namespace EF

def isNaN : EF → Bool
  | .nan => true
  | _ => false

/-- IEEE addition on `EF`: `nan` propagates, `-inf + +inf = nan`. -/
def add : EF → EF → EF
  | .nan, _ => .nan
  | _, .nan => .nan
  | .ninf, .pinf => .nan
  | .pinf, .ninf => .nan
  | .ninf, _ => .ninf
  | _, .ninf => .ninf
  | .pinf, _ => .pinf
  | _, .pinf => .pinf
  | .fin a, .fin b => .fin (a + b)

/-- IEEE subtraction on `EF`: `nan` propagates, `±inf - ±inf = nan`. -/
def sub : EF → EF → EF
  | .nan, _ => .nan
  | _, .nan => .nan
  | .ninf, .ninf => .nan
  | .pinf, .pinf => .nan
  | .ninf, _ => .ninf
  | .pinf, _ => .pinf
  | .fin _, .ninf => .pinf
  | .fin _, .pinf => .ninf
  | .fin a, .fin b => .fin (a - b)

/-- IEEE multiplication on `EF`: `nan` propagates, `±inf * 0 = nan`. -/
def mul : EF → EF → EF
  | .nan, _ => .nan
  | _, .nan => .nan
  | .ninf, .ninf => .pinf
  | .ninf, .pinf => .ninf
  | .pinf, .ninf => .ninf
  | .pinf, .pinf => .pinf
  | .ninf, .fin b => if b = 0 then .nan else if 0 < b then .ninf else .pinf
  | .pinf, .fin b => if b = 0 then .nan else if 0 < b then .pinf else .ninf
  | .fin a, .ninf => if a = 0 then .nan else if 0 < a then .ninf else .pinf
  | .fin a, .pinf => if a = 0 then .nan else if 0 < a then .pinf else .ninf
  | .fin a, .fin b => .fin (a * b)

/-- IEEE division on `EF`: `nan` propagates, `x/0` is a signed infinity for
`x ≠ 0` (NumPy emits a warning but produces the value), `0/0 = nan`,
`±inf/±inf = nan`, `x/±inf = 0`.  The sign of zero is not modelled; a zero
denominator behaves like `+0`. -/
def div : EF → EF → EF
  | .nan, _ => .nan
  | _, .nan => .nan
  | .ninf, .ninf => .nan
  | .ninf, .pinf => .nan
  | .pinf, .ninf => .nan
  | .pinf, .pinf => .nan
  | .ninf, .fin b => if b = 0 then .ninf else if 0 < b then .ninf else .pinf
  | .pinf, .fin b => if b = 0 then .pinf else if 0 < b then .pinf else .ninf
  | .fin _, .ninf => .fin 0
  | .fin _, .pinf => .fin 0
  | .fin a, .fin b =>
    if b = 0 then (if a = 0 then .nan else if 0 < a then .pinf else .ninf)
    else .fin (a / b)

/-- IEEE strict comparison on `EF`: any comparison with `nan` is `false`. -/
def lt : EF → EF → Bool
  | .nan, _ => false
  | _, .nan => false
  | .ninf, .ninf => false
  | .ninf, _ => true
  | _, .ninf => false
  | .pinf, _ => false
  | _, .pinf => true
  | .fin a, .fin b => decide (a < b)

end EF

/-- `hunt/game.py` `Decision`: an upper-level strategy and a lower-level
design decision (both zero-based indices). -/
structure Decision where
  strategy : Nat
  design : Nat
deriving DecidableEq, Repr

/-- `hunt/game.py` `Result`: both players' decisions and resulting payoffs. -/
structure Result where
  my_decision : Decision
  my_payoff : EF
  their_decision : Decision
  their_payoff : EF
deriving DecidableEq, Repr

/-- The design list of a `DesignGame`: a list of payoff matrices, each meant
to be a 2×2 table indexed by `[own strategy][opponent strategy]`, exactly as
`DesignGame.designs` in `hunt/game.py`. -/
abbrev Designs := List (List (List EF))

/-- `DesignGame.get_payoff` (`hunt/game.py`):
`designs[my.design][my.strategy][their.strategy]`.  Out-of-range lookups
(a Python `IndexError`) are replaced by the junk default `nan`; every theorem
about `get_payoff` carries the bounds hypotheses making the default
unreachable. -/
def get_payoff (designs : Designs) (my_decision their_decision : Decision) : EF :=
  ((designs.getD my_decision.design []).getD my_decision.strategy []).getD
    their_decision.strategy .nan

/-- The validity test of `DesignGame.play`: the decision's strategy is in
`[0, 1]` and its design is in `range(len(designs))`. -/
def validDecision (designs : Designs) (d : Decision) : Bool :=
  (d.strategy == 0 || d.strategy == 1) && d.design < designs.length

/-- Which player an `InvalidDecisionError` blames. -/
inductive Offender where
  | one : Offender
  | two : Offender
deriving DecidableEq, Repr

/-- Behaviour of a player object: `get_decision` and `report_result`
(`hunt/game.py` `Player` duck-typed contract), over an explicit state `σ`.
A `none` result models the method raising an arbitrary (non-`InvalidDecision`)
exception; the state is then taken as unchanged (method calls fail
atomically in this model). -/
structure AgentBeh (σ : Type) where
  get_decision : σ → Option (Decision × σ)
  report_result : σ → Result → Option σ

/-- Outcome of one `DesignGame.play` call.  `invalid` models
`InvalidDecisionError` (it carries the blamed player and that player's
decision, as the Python exception object does) and `exn` models any other
exception propagating out of `play`.  Both also carry each player's state at
the moment the exception escapes. -/
inductive PlayResult (σ₁ σ₂ : Type) where
  | ok (r : Result) (s1 : σ₁) (s2 : σ₂)
  | invalid (who : Offender) (d : Decision) (s1 : σ₁) (s2 : σ₂)
  | exn (s1 : σ₁) (s2 : σ₂)
deriving DecidableEq

/-- `DesignGame.play` (`hunt/game.py`, lines 113–136): get player 1's
decision, validate it, get player 2's decision, validate it, compute both
payoffs, report a `Result` to each player, return the combined `Result`. -/
def play (designs : Designs) (b1 : AgentBeh σ₁) (s1 : σ₁) (b2 : AgentBeh σ₂)
    (s2 : σ₂) : PlayResult σ₁ σ₂ :=
  match b1.get_decision s1 with
  | none => .exn s1 s2
  | some (d1, s1') =>
    if validDecision designs d1 = false then .invalid .one d1 s1' s2
    else
      match b2.get_decision s2 with
      | none => .exn s1' s2
      | some (d2, s2') =>
        if validDecision designs d2 = false then .invalid .two d2 s1' s2'
        else
          let payoff_1 := get_payoff designs d1 d2
          let payoff_2 := get_payoff designs d2 d1
          match b1.report_result s1' (Result.mk d1 payoff_1 d2 payoff_2) with
          | none => .exn s1' s2'
          | some s1'' =>
            match b2.report_result s2' (Result.mk d2 payoff_2 d1 payoff_1) with
            | none => .exn s1'' s2'
            | some s2'' => .ok (Result.mk d1 payoff_1 d2 payoff_2) s1'' s2''

/-! ## NumPy reductions

`np.argmax` returns the index of the first `nan` when one is present,
otherwise the first index attaining the maximum.  `np.nanargmax` ignores
`nan` entries and raises `ValueError` when no entry is left (modelled by
`none`).  `np.nanmin` ignores `nan` entries and returns `nan` when none is
left. -/

/-- Scan for the first index whose value strictly exceeds the best so far
(`bi`, `bv` are the best index and value, `i` the index of the list head). -/
def argmaxAux : List EF → Nat → EF → Nat → Nat
  | [], bi, _, _ => bi
  | x :: xs, bi, bv, i =>
    if EF.lt bv x then argmaxAux xs i x (i + 1) else argmaxAux xs bi bv (i + 1)

/-- `np.argmax` on floats: index of the first `nan` if any, else first index
of the maximum.  NumPy raises on an empty array; the junk value `0` is
returned instead and every use site is guarded by a nonemptiness fact. -/
def argmaxNp (l : List EF) : Nat :=
  match l.findIdx? EF.isNaN with
  | some i => i
  | none =>
    match l with
    | [] => 0
    | x :: xs => argmaxAux xs 0 x 1

/-- Scan keeping the best non-`nan` index/value seen so far (`none` while all
entries seen were `nan`). -/
def nanargmaxAux : List EF → Nat → Option (Nat × EF) → Option (Nat × EF)
  | [], _, best => best
  | x :: xs, i, best =>
    if x.isNaN then nanargmaxAux xs (i + 1) best
    else
      match best with
      | none => nanargmaxAux xs (i + 1) (some (i, x))
      | some (bi, bv) =>
        if EF.lt bv x then nanargmaxAux xs (i + 1) (some (i, x))
        else nanargmaxAux xs (i + 1) (some (bi, bv))

/-- `np.nanargmax`: first index of the maximum over non-`nan` entries;
`none` models the `ValueError` raised on an all-`nan` (or empty) array. -/
def nanargmax (l : List EF) : Option Nat :=
  (nanargmaxAux l 0 none).map Prod.fst

/-! ## Symbolic log domain for the risk-dominance index

`RiskAwareRDplayer.get_risk_dominance` returns
`0.5*np.log(r₁) + 0.5*np.log(r₂)` for two `EF` ratios `r₁, r₂`.  The code
observes this value only through `< 0` comparisons (`risk_dominance < 0`,
`np.nanmin(...) < 0`), so the real value is carried exactly in symbolic
form: `LogV.lg q` stands for the positive real argument of the logarithm
(the value denoted is `log q`, or `(1/2)*log q` after `logHalfSum` — either
way it is negative iff `q < 1`, zero iff `q = 1`, positive iff `q > 1`,
because `log` is strictly increasing with `log 1 = 0`). -/

/-- A symbolic extended log-value: `nan`, `-inf`, `lg q` (the logarithm of a
positive rational `q`, up to a positive scalar factor), or `+inf`. -/
inductive LogV where
  | nan : LogV
  | ninf : LogV
  | lg (q : ℚ) : LogV
  | pinf : LogV
deriving DecidableEq, Repr

namespace LogV

def isNaN : LogV → Bool
  | .nan => true
  | _ => false

/-- `x < 0` on a log-value: `log q < 0 ↔ q < 1` (and NumPy's comparison with
`nan` is `false`). -/
def lt0 : LogV → Bool
  | .nan => false
  | .ninf => true
  | .lg q => decide (q < 1)
  | .pinf => false

/-- Minimum of two non-`nan` log-values (`log` is monotone, so the minimum of
`log a` and `log b` is `log (min a b)`).  `nan` operands do not occur: the
only caller filters them out first. -/
def minV : LogV → LogV → LogV
  | .nan, _ => .nan
  | _, .nan => .nan
  | .ninf, _ => .ninf
  | _, .ninf => .ninf
  | .lg a, .lg b => .lg (min a b)
  | .lg a, .pinf => .lg a
  | .pinf, y => y

end LogV

/-- `np.log` on an `EF` value: `log nan = nan`, `log x = nan` for `x < 0`
(NumPy emits an invalid-value warning and yields `nan`; the player wraps the
computation in `np.errstate(invalid="ignore")`), `log 0 = -inf`,
`log (+inf) = +inf`, `log (-inf) = nan`, and `log q` for `0 < q` is kept
symbolic. -/
def elog : EF → LogV
  | .nan => .nan
  | .ninf => .nan
  | .pinf => .pinf
  | .fin q => if q < 0 then .nan else if q = 0 then .ninf else .lg q

/-- `0.5 * x + 0.5 * y` on log-values: `nan` propagates, `-inf + +inf = nan`,
infinities absorb finite values (the positive factor `0.5` changes no sign
or class), and `(1/2)*(log a + log b) = (1/2)*log (a*b)` in the finite
case. -/
def logHalfSum : LogV → LogV → LogV
  | .nan, _ => .nan
  | _, .nan => .nan
  | .ninf, .pinf => .nan
  | .pinf, .ninf => .nan
  | .ninf, _ => .ninf
  | _, .ninf => .ninf
  | .pinf, _ => .pinf
  | _, .pinf => .pinf
  | .lg a, .lg b => .lg (a * b)

/-- `np.nanmin` over log-values: minimum ignoring `nan` entries, `nan` when
no entry remains. -/
def nanminL (l : List LogV) : LogV :=
  l.foldl (fun acc x =>
    if x.isNaN then acc else if acc.isNaN then x else LogV.minV acc x) .nan

/-! ## `RiskAwareRDplayer` (`players_new.py`, lines 7–132) -/

/-- State of a `RiskAwareRDplayer`: the bound game's design list, the utility
transform, and the remembered opponent decision.  `get_utility` computes
`v` when `risk_aversion = 0` and the CARA form `(1 - exp(-λ·v))/λ` otherwise
— a real-valued transform not expressible over `ℚ`, so it is embedded as the
function field `u`; concrete instances use the identity (the exact
`risk_aversion = 0` branch). -/
structure RDPlayer where
  game : Designs
  u : EF → EF
  their_prior_decision : Option Decision

/-- `RiskAwareRDplayer.report_result`: remember the opponent's decision. -/
def RDPlayer.report_result (p : RDPlayer) (r : Result) : RDPlayer :=
  { p with their_prior_decision := some r.their_decision }

/-- `RiskAwareRDplayer.get_risk_dominance(design, independent_design)`
("new method" branch, the one the code executes):
`0.5*log r₁ + 0.5*log r₂` where `r₁` uses `design` for the collaborative
payoffs and `r₂` uses the opponent's prior design (falling back to `design`
when no result was reported yet). -/
def RDPlayer.get_risk_dominance (p : RDPlayer) (design independent_design : Nat) :
    LogV :=
  let pd := match p.their_prior_decision with
    | some d => d.design
    | none => design
  let r1 := EF.div
    (EF.sub (p.u (get_payoff p.game ⟨0, independent_design⟩ ⟨0, 0⟩))
            (p.u (get_payoff p.game ⟨1, design⟩ ⟨0, 0⟩)))
    (EF.sub (p.u (get_payoff p.game ⟨1, design⟩ ⟨1, 0⟩))
            (p.u (get_payoff p.game ⟨0, independent_design⟩ ⟨1, 0⟩)))
  let r2 := EF.div
    (EF.sub (p.u (get_payoff p.game ⟨0, independent_design⟩ ⟨0, 0⟩))
            (p.u (get_payoff p.game ⟨1, pd⟩ ⟨0, 0⟩)))
    (EF.sub (p.u (get_payoff p.game ⟨1, pd⟩ ⟨1, 0⟩))
            (p.u (get_payoff p.game ⟨0, independent_design⟩ ⟨1, 0⟩)))
  logHalfSum (elog r1) (elog r2)

/-- `independent_value`: utilities of playing strategy 0 against strategy 0,
for every design. -/
def RDPlayer.independent_value (p : RDPlayer) : List EF :=
  (List.range p.game.length).map fun d => p.u (get_payoff p.game ⟨0, d⟩ ⟨0, 0⟩)

/-- `risk_dominance`: the risk-dominance index of every design. -/
def RDPlayer.risk_dominance (p : RDPlayer) (independent_design : Nat) : List LogV :=
  (List.range p.game.length).map fun d => p.get_risk_dominance d independent_design

/-- `collaborative_value`: utilities of playing strategy 1 against
strategy 1, for every design. -/
def RDPlayer.collaborative_value (p : RDPlayer) : List EF :=
  (List.range p.game.length).map fun d => p.u (get_payoff p.game ⟨1, d⟩ ⟨1, 0⟩)

/-- `collaborative_value * (risk_dominance < 0)`: NumPy broadcasts the bool
mask to `1.0`/`0.0` and multiplies elementwise (so a masked-out entry is
`0.0`, or `nan` when the value itself is `nan` or infinite). -/
def RDPlayer.maskedCollab (p : RDPlayer) (independent_design : Nat) : List EF :=
  List.zipWith (fun v r => EF.mul v (if LogV.lt0 r then EF.fin 1 else EF.fin 0))
    p.collaborative_value (p.risk_dominance independent_design)

/-- `RiskAwareRDplayer.get_decision` (lines 109–132).  `none` models the
`ValueError` of `np.nanargmax` on an all-`nan` (or empty) array. -/
def RDPlayer.get_decision (p : RDPlayer) : Option Decision :=
  match nanargmax p.independent_value with
  | none => none
  | some independent_design =>
    let collaborative_design := argmaxNp (p.maskedCollab independent_design)
    if LogV.lt0 (nanminL (p.risk_dominance independent_design)) then
      some ⟨1, collaborative_design⟩
    else
      some ⟨0, independent_design⟩

/-! ## `RiskAwareEUplayer` (`players_new.py`, lines 160–209) -/

/-- State of a `RiskAwareEUplayer`: bound design list, utility transform
(embedded as for `RDPlayer`), and the Beta pseudo-counts
`strategy_prior = [prior_no_collab, prior_collab]`. -/
structure EUPlayer where
  game : Designs
  u : EF → EF
  prior_no_collab : ℚ
  prior_collab : ℚ

/-- `RiskAwareEUplayer.report_result`: increment the pseudo-count at the
index given by the opponent's strategy.  A strategy outside `{0, 1}` would
make the NumPy indexing fail (`none`). -/
def EUPlayer.report_result (p : EUPlayer) (r : Result) : Option EUPlayer :=
  match r.their_decision.strategy with
  | 0 => some { p with prior_no_collab := p.prior_no_collab + 1 }
  | 1 => some { p with prior_collab := p.prior_collab + 1 }
  | _ => none

/-- `stats.beta(prior_collab, prior_no_collab).mean()`: `a/(a+b)` for valid
shape parameters `a, b > 0`, `nan` otherwise (SciPy's invalid-parameter
result). -/
def EUPlayer.p_collab (p : EUPlayer) : EF :=
  if 0 < p.prior_collab ∧ 0 < p.prior_no_collab then
    .fin (p.prior_collab / (p.prior_collab + p.prior_no_collab))
  else .nan

/-- `independent_expected_value`: for every design,
`u(payoff(0, d, vs 1))*p_collab + u(payoff(0, d, vs 0))*(1 - p_collab)`. -/
def EUPlayer.independent_ev (p : EUPlayer) : List EF :=
  (List.range p.game.length).map fun d =>
    EF.add (EF.mul (p.u (get_payoff p.game ⟨0, d⟩ ⟨1, 0⟩)) p.p_collab)
           (EF.mul (p.u (get_payoff p.game ⟨0, d⟩ ⟨0, 0⟩))
                   (EF.sub (.fin 1) p.p_collab))

/-- `collab_expected_value`: the same with strategy-1 payoffs. -/
def EUPlayer.collab_ev (p : EUPlayer) : List EF :=
  (List.range p.game.length).map fun d =>
    EF.add (EF.mul (p.u (get_payoff p.game ⟨1, d⟩ ⟨1, 0⟩)) p.p_collab)
           (EF.mul (p.u (get_payoff p.game ⟨1, d⟩ ⟨0, 0⟩))
                   (EF.sub (.fin 1) p.p_collab))

/-- `RiskAwareEUplayer.get_decision` (lines 175–209): NaN-tolerant arg-max
for the independent design, plain `np.argmax` for the collaborative design,
then `Decision(0, ...)` iff every collaborative expected value is strictly
below the best independent one (`np.all`, with IEEE `nan`-is-incomparable
semantics).  `none` models the `ValueError` of `np.nanargmax`. -/
def EUPlayer.get_decision (p : EUPlayer) : Option Decision :=
  match nanargmax p.independent_ev with
  | none => none
  | some independent_design =>
    let collaborative_design := argmaxNp p.collab_ev
    if p.collab_ev.all
        (fun v => EF.lt v (p.independent_ev.getD independent_design .nan)) then
      some ⟨0, independent_design⟩
    else
      some ⟨1, collaborative_design⟩

/-! ## `Tournament` (`hunt/tournament.py`)

The scheduler is embedded compositionally: one replicate (`repStep`), the
replicate loop of one game (`runReps`), one game of a match (`gameStep`), the
game loop of a match (`runMatch`), and the match loop (`run`).  The loops are
plain left folds in the same order as the Python `for` loops, and every log
list is appended in the order the Python code appends.

The replication policy (`num_reps` fixed, or drawn from
`self.rng.geometric(self.p_rep)` once per match × game in enumeration order)
is modelled by the oracle `reps : matchIdx → gameIdx → Nat`, which covers the
fixed mode (a constant function) and any realized sequence of geometric
draws.

In this repository every player's display name is a constant fixed by its
constructor (e.g. `"null"`, `"RD_averse1"`), so the embedding hoists `name`
from the instance into the constructor. -/

/-- One entry of `Tournament.rep_results`. -/
structure RepLogEntry where
  game : Nat
  rep : Nat
  p1_name : String
  p1_design : Nat
  p1_strategy : Nat
  p1_payoff : EF
  p2_name : String
  p2_design : Nat
  p2_strategy : Nat
  p2_payoff : EF
deriving DecidableEq, Repr

/-- One entry of `Tournament.error_results`: either the record written for an
`InvalidDecisionError` (game, rep, offender name, offending design and
strategy) or the generic record (game, rep, both names). -/
inductive ErrEntry where
  | invalidE (game rep : Nat) (player : String) (design strategy : Nat)
  | genericE (game rep : Nat) (player_1 player_2 : String)
deriving DecidableEq, Repr

def ErrEntry.game : ErrEntry → Nat
  | .invalidE g _ _ _ _ => g
  | .genericE g _ _ _ => g

def ErrEntry.rep : ErrEntry → Nat
  | .invalidE _ r _ _ _ => r
  | .genericE _ r _ _ => r

/-- One entry of `Tournament.game_results`. -/
structure GameLogEntry where
  game : Nat
  reps : Nat
  p1_name : String
  p1_score : EF
  p2_name : String
  p2_score : EF
deriving DecidableEq, Repr

/-- One entry of `Tournament.match_results`. -/
structure MatchLogEntry where
  p1_name : String
  p1_score : EF
  p2_name : String
  p2_score : EF
deriving DecidableEq, Repr

/-- A player constructor (an element of `Tournament.players`): the display
name it assigns and the behaviour/initial state it builds when called with a
game. -/
structure PlayerCtor (σ : Type) where
  name : String
  make : Designs → AgentBeh σ × σ

/-- `self.results.get(name, 0)`. -/
def dictGet (m : List (String × EF)) (k : String) : EF :=
  match m.find? (fun p => p.1 == k) with
  | some p => p.2
  | none => .fin 0

/-- `self.results[name] = v`: Python-dict update (overwrite in place if the
key exists, else append). -/
def dictSet (m : List (String × EF)) (k : String) (v : EF) : List (String × EF) :=
  if m.any (fun p => p.1 == k) then
    m.map (fun p => if p.1 == k then (k, v) else p)
  else m ++ [(k, v)]

/-- Accumulator of the replicate loop: both players' states, both running
game scores, and the two log lists grown so far. -/
structure RepAcc (σ : Type) where
  s1 : σ
  s2 : σ
  sc1 : EF
  sc2 : EF
  rlogs : List RepLogEntry
  elogs : List ErrEntry

/-- One iteration of the replicate loop (`tournament.py` lines 75–121): play
the game; on success log the replicate and add `payoff / num_reps` to each
running score; on `InvalidDecisionError` append the invalid-decision error
record; on any other exception append the generic error record.  A failed
replicate changes neither score. -/
def repStep (designs : Designs) (b1 b2 : AgentBeh σ) (n1 n2 : String)
    (g numReps : Nat) (acc : RepAcc σ) (rep : Nat) : RepAcc σ :=
  match play designs b1 acc.s1 b2 acc.s2 with
  | .ok r t1 t2 =>
    { s1 := t1, s2 := t2,
      sc1 := EF.add acc.sc1 (EF.div r.my_payoff (.fin numReps)),
      sc2 := EF.add acc.sc2 (EF.div r.their_payoff (.fin numReps)),
      rlogs := acc.rlogs ++
        [⟨g, rep, n1, r.my_decision.design, r.my_decision.strategy, r.my_payoff,
          n2, r.their_decision.design, r.their_decision.strategy,
          r.their_payoff⟩],
      elogs := acc.elogs }
  | .invalid who d t1 t2 =>
    { acc with
      s1 := t1
      s2 := t2
      elogs := acc.elogs ++
        [.invalidE g rep (match who with | .one => n1 | .two => n2)
          d.design d.strategy] }
  | .exn t1 t2 =>
    { acc with
      s1 := t1
      s2 := t2
      elogs := acc.elogs ++ [.genericE g rep n1 n2] }

/-- The replicate loop `for rep in range(num_reps)` of one game. -/
def runReps (designs : Designs) (b1 b2 : AgentBeh σ) (n1 n2 : String)
    (g numReps : Nat) (s1 : σ) (s2 : σ) : RepAcc σ :=
  (List.range numReps).foldl (repStep designs b1 b2 n1 n2 g numReps)
    ⟨s1, s2, .fin 0, .fin 0, [], []⟩

/-- Accumulator of the game loop of one match: running match scores and the
logs grown so far. -/
structure GameAcc where
  ms1 : EF
  ms2 : EF
  rlogs : List RepLogEntry
  elogs : List ErrEntry
  glogs : List GameLogEntry

/-- One iteration of the game loop (`tournament.py` lines 63–135):
instantiate both players fresh on a value copy of the game's designs (a deep
copy, which for immutable data is the data itself), draw the replicate count
from the oracle, run the replicates, log the game, and add
`game_score / len(games)` to each running match score. -/
def gameStep (c1 c2 : PlayerCtor σ) (numGames : Nat) (repf : Nat → Nat)
    (acc : GameAcc) (gd : Nat × Designs) : GameAcc :=
  let g := gd.1
  let designs := gd.2
  let m1 := c1.make designs
  let m2 := c2.make designs
  let numReps := repf g
  let r := runReps designs m1.1 m2.1 c1.name c2.name g numReps m1.2 m2.2
  { ms1 := EF.add acc.ms1 (EF.div r.sc1 (.fin numGames)),
    ms2 := EF.add acc.ms2 (EF.div r.sc2 (.fin numGames)),
    rlogs := acc.rlogs ++ r.rlogs,
    elogs := acc.elogs ++ r.elogs,
    glogs := acc.glogs ++ [⟨g, numReps, c1.name, r.sc1, c2.name, r.sc2⟩] }

/-- All games of one match, in order. -/
def runMatch (c1 c2 : PlayerCtor σ) (games : List Designs) (repf : Nat → Nat) :
    GameAcc :=
  games.enum.foldl (gameStep c1 c2 games.length repf)
    ⟨.fin 0, .fin 0, [], [], []⟩

/-- `itertools.combinations_with_replacement(l, 2)` in its enumeration
order: `(l[0],l[0]), (l[0],l[1]), …, (l[0],l[n-1]), (l[1],l[1]), …`. -/
def cwr : List α → List (α × α)
  | [] => []
  | x :: xs => (x :: xs).map (fun y => (x, y)) ++ cwr xs

/-- Accumulator of the match loop: the match counter (the position in the
enumeration order, which indexes the replication oracle), the four log
collections and the results dictionary. -/
structure RunAcc where
  m : Nat
  rlogs : List RepLogEntry
  elogs : List ErrEntry
  glogs : List GameLogEntry
  mlogs : List MatchLogEntry
  results : List (String × EF)

/-- One iteration of the match loop (`tournament.py` lines 58–155): run the
match, log it, then add each side's match score, times `0.5` when the two
display names are equal and divided by the number of players, into the
result bucket keyed by that side's name. -/
def matchStep (games : List Designs) (reps : Nat → Nat → Nat) (numPlayers : Nat)
    (acc : RunAcc) (pair : PlayerCtor σ × PlayerCtor σ) : RunAcc :=
  let c1 := pair.1
  let c2 := pair.2
  let r := runMatch c1 c2 games (reps acc.m)
  let factor : EF := if c1.name = c2.name then .fin (1/2) else .fin 1
  let res1 := dictSet acc.results c1.name
    (EF.add (dictGet acc.results c1.name)
      (EF.div (EF.mul r.ms1 factor) (.fin numPlayers)))
  let res2 := dictSet res1 c2.name
    (EF.add (dictGet res1 c2.name)
      (EF.div (EF.mul r.ms2 factor) (.fin numPlayers)))
  { m := acc.m + 1,
    rlogs := acc.rlogs ++ r.rlogs,
    elogs := acc.elogs ++ r.elogs,
    glogs := acc.glogs ++ r.glogs,
    mlogs := acc.mlogs ++ [⟨c1.name, r.ms1, c2.name, r.ms2⟩],
    results := res2 }

/-- A tournament configuration: the player (constructor) list, the game
list (each game is its design list), and the replication oracle. -/
structure TConfig (σ : Type) where
  players : List (PlayerCtor σ)
  games : List Designs
  reps : Nat → Nat → Nat

/-- `Tournament.run` (`hunt/tournament.py`, lines 42–156): enumerate the
round-robin matches (unordered pairs with repetition, in
`combinations_with_replacement` order) and fold the match loop over them
starting from cleared logs and an empty results dictionary. -/
def run (cfg : TConfig σ) : RunAcc :=
  (cwr cfg.players).foldl (matchStep cfg.games cfg.reps cfg.players.length)
    ⟨0, [], [], [], [], []⟩

/-! ## Behaviour of `play` (shared lemmas) -/

/-- When player 1's decision is invalid, `play` raises at once: player 2 is
never queried and neither `report_result` runs. -/
theorem play_invalid_one (designs : Designs) (b1 : AgentBeh σ₁) (s1 : σ₁)
    (b2 : AgentBeh σ₂) (s2 : σ₂) (d1 : Decision) (s1' : σ₁)
    (h1 : b1.get_decision s1 = some (d1, s1'))
    (hv1 : validDecision designs d1 = false) :
    play designs b1 s1 b2 s2 = .invalid .one d1 s1' s2 := by
  simp [play, h1, hv1]

/-- When player 1's decision is valid and player 2's is not, `play` raises
blaming player 2, before any `report_result` runs. -/
theorem play_invalid_two (designs : Designs) (b1 : AgentBeh σ₁) (s1 : σ₁)
    (b2 : AgentBeh σ₂) (s2 : σ₂) (d1 : Decision) (s1' : σ₁) (d2 : Decision)
    (s2' : σ₂) (h1 : b1.get_decision s1 = some (d1, s1'))
    (h2 : b2.get_decision s2 = some (d2, s2'))
    (hv1 : validDecision designs d1 = true)
    (hv2 : validDecision designs d2 = false) :
    play designs b1 s1 b2 s2 = .invalid .two d2 s1' s2' := by
  simp [play, h1, h2, hv1, hv2]

/-- When both decisions are valid, `play` never raises
`InvalidDecisionError`. -/
theorem play_valid_not_invalid (designs : Designs) (b1 : AgentBeh σ₁) (s1 : σ₁)
    (b2 : AgentBeh σ₂) (s2 : σ₂) (d1 : Decision) (s1' : σ₁) (d2 : Decision)
    (s2' : σ₂) (h1 : b1.get_decision s1 = some (d1, s1'))
    (h2 : b2.get_decision s2 = some (d2, s2'))
    (hv1 : validDecision designs d1 = true)
    (hv2 : validDecision designs d2 = true) :
    ∀ (who : Offender) (d : Decision) (t1 : σ₁) (t2 : σ₂),
      play designs b1 s1 b2 s2 ≠ .invalid who d t1 t2 := by
  intro who d t1 t2
  cases hr1 : b1.report_result s1'
      (Result.mk d1 (get_payoff designs d1 d2) d2 (get_payoff designs d2 d1)) with
  | none => simp [play, h1, h2, hv1, hv2, hr1]
  | some s1'' =>
    cases hr2 : b2.report_result s2'
        (Result.mk d2 (get_payoff designs d2 d1) d1 (get_payoff designs d1 d2)) with
    | none => simp [play, h1, h2, hv1, hv2, hr1, hr2]
    | some s2'' => simp [play, h1, h2, hv1, hv2, hr1, hr2]

/-! ## Claim C1 — `get_payoff` -/

/-- **C1.** For every payoff model with design list `D` and every pair of
valid decisions, `get_payoff(mine, theirs)` returns
`D[mine.design][mine.strategy][theirs.strategy]`; consequently two opponent
decisions differing only in their design field yield the same payoff. -/
theorem c1_get_payoff_ignores_their_design (designs : Designs)
    (mine theirs theirs' : Decision)
    (hd : mine.design < designs.length)
    (hs : mine.strategy < designs[mine.design].length)
    (ht : theirs.strategy < designs[mine.design][mine.strategy].length) :
    get_payoff designs mine theirs
      = designs[mine.design][mine.strategy][theirs.strategy]
    ∧ (theirs.strategy = theirs'.strategy →
        get_payoff designs mine theirs = get_payoff designs mine theirs') := by
  constructor
  · simp only [get_payoff]
    rw [List.getD_eq_getElem _ _ hd, List.getD_eq_getElem _ _ hs,
      List.getD_eq_getElem _ _ ht]
  · intro h
    simp only [get_payoff, h]

/-- Witness for C1 at a concrete model and decisions. -/
theorem c1_witness :
    get_payoff [[[.fin 3, .fin 0], [.fin 5, .fin 1]]] ⟨1, 0⟩ ⟨0, 7⟩
        = ([[[.fin 3, .fin 0], [.fin 5, .fin 1]]] : Designs)[0][1][0]
      ∧ ((⟨0, 7⟩ : Decision).strategy = (⟨0, 9⟩ : Decision).strategy →
          get_payoff [[[.fin 3, .fin 0], [.fin 5, .fin 1]]] ⟨1, 0⟩ ⟨0, 7⟩
            = get_payoff [[[.fin 3, .fin 0], [.fin 5, .fin 1]]] ⟨1, 0⟩ ⟨0, 9⟩) :=
  c1_get_payoff_ignores_their_design _ ⟨1, 0⟩ ⟨0, 7⟩ ⟨0, 9⟩
    (by decide) (by decide) (by decide)

/-! ## Claim C2 — `play` validation -/

/-- **C2.** `play(agentA, agentB)` fails with `InvalidDecisionError` exactly
when a returned decision has strategy outside `{0,1}` or design outside
`[0, len(designs))`; the error blames the offending agent and carries that
agent's decision unchanged; on failure no payoff is computed and no result
is reported to either agent (the states carried by the error are exactly the
post-`get_decision` states, with no `report_result` applied). -/
theorem c2_play_invalid_iff (designs : Designs)
    (b1 : AgentBeh σ₁) (s1 : σ₁) (b2 : AgentBeh σ₂) (s2 : σ₂)
    (d1 : Decision) (s1' : σ₁) (d2 : Decision) (s2' : σ₂)
    (h1 : b1.get_decision s1 = some (d1, s1'))
    (h2 : b2.get_decision s2 = some (d2, s2')) :
    (validDecision designs d1 = false →
      play designs b1 s1 b2 s2 = .invalid .one d1 s1' s2)
    ∧ (validDecision designs d1 = true → validDecision designs d2 = false →
      play designs b1 s1 b2 s2 = .invalid .two d2 s1' s2')
    ∧ (validDecision designs d1 = true → validDecision designs d2 = true →
      ∀ (who : Offender) (d : Decision) (t1 : σ₁) (t2 : σ₂),
        play designs b1 s1 b2 s2 ≠ .invalid who d t1 t2) :=
  ⟨fun hv1 => play_invalid_one designs b1 s1 b2 s2 d1 s1' h1 hv1,
   fun hv1 hv2 => play_invalid_two designs b1 s1 b2 s2 d1 s1' d2 s2' h1 h2 hv1 hv2,
   fun hv1 hv2 =>
     play_valid_not_invalid designs b1 s1 b2 s2 d1 s1' d2 s2' h1 h2 hv1 hv2⟩

/-- Witness for C2: a player returning strategy 2 is rejected and blamed. -/
theorem c2_witness :
    play [[[.fin 3, .fin 0], [.fin 5, .fin 1]]]
        { get_decision := fun (s : Unit) => some (⟨2, 0⟩, s)
          report_result := fun s _ => some s } ()
        { get_decision := fun (s : Unit) => some (⟨0, 0⟩, s)
          report_result := fun s _ => some s } ()
      = .invalid .one ⟨2, 0⟩ () () :=
  (c2_play_invalid_iff _ _ _ _ _ ⟨2, 0⟩ () ⟨0, 0⟩ () rfl rfl).1 (by decide)

/-! ## Claim C9 — `play` success path -/

/-- **C9.** For valid decisions, `play` computes each side's payoff via
`get_payoff` on the two decisions, calls `report_result` exactly once on each
agent with a `Result` holding that agent's own decision/payoff and the
opponent's, returns the combined `Result`, and has no effects beyond the two
`report_result` calls: the final states are exactly the single
`report_result` applications to the post-`get_decision` states. -/
theorem c9_play_success (designs : Designs)
    (b1 : AgentBeh σ₁) (s1 : σ₁) (b2 : AgentBeh σ₂) (s2 : σ₂)
    (d1 : Decision) (s1' : σ₁) (d2 : Decision) (s2' : σ₂) (s1'' : σ₁) (s2'' : σ₂)
    (h1 : b1.get_decision s1 = some (d1, s1'))
    (h2 : b2.get_decision s2 = some (d2, s2'))
    (hv1 : validDecision designs d1 = true)
    (hv2 : validDecision designs d2 = true)
    (hr1 : b1.report_result s1'
      (Result.mk d1 (get_payoff designs d1 d2) d2 (get_payoff designs d2 d1))
      = some s1'')
    (hr2 : b2.report_result s2'
      (Result.mk d2 (get_payoff designs d2 d1) d1 (get_payoff designs d1 d2))
      = some s2'') :
    play designs b1 s1 b2 s2
      = .ok (Result.mk d1 (get_payoff designs d1 d2) d2
          (get_payoff designs d2 d1)) s1'' s2'' := by
  simp [play, h1, h2, hv1, hv2, hr1, hr2]

/-- Witness for C9: two counting agents; each is reported to exactly once. -/
theorem c9_witness :
    play [[[.fin 3, .fin 0], [.fin 5, .fin 1]]]
        { get_decision := fun (s : Nat) => some (⟨0, 0⟩, s)
          report_result := fun s _ => some (s + 1) } 0
        { get_decision := fun (s : Nat) => some (⟨1, 0⟩, s)
          report_result := fun s _ => some (s + 1) } 5
      = .ok (Result.mk ⟨0, 0⟩
          (get_payoff [[[.fin 3, .fin 0], [.fin 5, .fin 1]]] ⟨0, 0⟩ ⟨1, 0⟩)
          ⟨1, 0⟩
          (get_payoff [[[.fin 3, .fin 0], [.fin 5, .fin 1]]] ⟨1, 0⟩ ⟨0, 0⟩))
          1 6 :=
  c9_play_success _ _ _ _ _ ⟨0, 0⟩ 0 ⟨1, 0⟩ 5 1 6 rfl rfl (by decide) (by decide)
    rfl rfl

/-! ## Claim C10 — failure ordering and state preservation -/

/-- **C10.** If the first agent's decision is invalid, `play` raises before
the second agent's `get_decision` is ever invoked (the result holds with the
second agent's state untouched, uniformly in the second agent's behaviour —
even one whose `get_decision` would fail or change state); and whenever
`play` fails with `InvalidDecisionError`, neither agent's `report_result`
was called, so for agents whose `get_decision` leaves their state unchanged
(as with the learning state of the risk-dominance and expected-utility
players) both states are exactly what they were before the call. -/
theorem c10_invalid_preserves_states (designs : Designs)
    (b1 : AgentBeh σ₁) (s1 : σ₁) (d1 : Decision)
    (h1 : b1.get_decision s1 = some (d1, s1)) :
    (validDecision designs d1 = false →
      ∀ (σ₂ : Type) (b2 : AgentBeh σ₂) (s2 : σ₂),
        play designs b1 s1 b2 s2 = .invalid .one d1 s1 s2)
    ∧ (∀ (σ₂ : Type) (b2 : AgentBeh σ₂) (s2 : σ₂) (d2 : Decision),
        b2.get_decision s2 = some (d2, s2) →
        ∀ (who : Offender) (d : Decision) (t1 : σ₁) (t2 : σ₂),
          play designs b1 s1 b2 s2 = .invalid who d t1 t2 →
          t1 = s1 ∧ t2 = s2) := by
  constructor
  · intro hv1 σ₂ b2 s2
    exact play_invalid_one designs b1 s1 b2 s2 d1 s1 h1 hv1
  · intro σ₂ b2 s2 d2 h2 who d t1 t2 hp
    cases hv1 : validDecision designs d1 with
    | false =>
      rw [play_invalid_one designs b1 s1 b2 s2 d1 s1 h1 hv1] at hp
      injection hp with _ _ e1 e2
      exact ⟨e1.symm, e2.symm⟩
    | true =>
      cases hv2 : validDecision designs d2 with
      | false =>
        rw [play_invalid_two designs b1 s1 b2 s2 d1 s1 d2 s2 h1 h2 hv1 hv2] at hp
        injection hp with _ _ e1 e2
        exact ⟨e1.symm, e2.symm⟩
      | true =>
        exact absurd hp
          (play_valid_not_invalid designs b1 s1 b2 s2 d1 s1 d2 s2 h1 h2 hv1 hv2
            who d t1 t2)

/-- Witness for C10: with a Beta-count learning state, an invalid first
decision leaves both states untouched, whatever the second agent would do. -/
theorem c10_witness :
    play [[[.fin 3, .fin 0], [.fin 5, .fin 1]]]
        { get_decision := fun (s : Nat × Nat) => some (⟨0, 5⟩, s)
          report_result := fun s _ => some (s.1 + 1, s.2) } (1, 1)
        { get_decision := fun (_ : Nat × Nat) => none
          report_result := fun s _ => some (s.1 + 1, s.2) } (1, 1)
      = .invalid .one ⟨0, 5⟩ (1, 1) (1, 1) :=
  (c10_invalid_preserves_states _ _ _ ⟨0, 5⟩ rfl).1 (by decide) _ _ (1, 1)

/-! ## Claim C6 — Beta–Bernoulli belief update -/

/-- Folding `report_result` over a sequence of results, as the tournament
delivers them across successive replicates. -/
def EUPlayer.reportAll (p : EUPlayer) (rs : List Result) : Option EUPlayer :=
  rs.foldlM EUPlayer.report_result p

/-- Each reported result increments the pseudo-count indexed by the
opponent's strategy, so a report sequence adds the per-strategy counts. -/
theorem EUPlayer.reportAll_counts (rs : List Result)
    (h : ∀ r ∈ rs,
      r.their_decision.strategy = 0 ∨ r.their_decision.strategy = 1) :
    ∀ p : EUPlayer,
      p.reportAll rs = some
        { p with
          prior_no_collab := p.prior_no_collab +
            (rs.countP (fun r => r.their_decision.strategy == 0) : ℚ)
          prior_collab := p.prior_collab +
            (rs.countP (fun r => r.their_decision.strategy == 1) : ℚ) } := by
  induction rs with
  | nil =>
    intro p
    simp [reportAll]
  | cons r rs ih =>
    intro p
    have hrest : ∀ r' ∈ rs,
        r'.their_decision.strategy = 0 ∨ r'.their_decision.strategy = 1 :=
      fun r' hm => h r' (List.mem_cons_of_mem r hm)
    rcases h r (List.mem_cons_self r rs) with h0 | h1
    · have hc0 : (r :: rs).countP (fun x => x.their_decision.strategy == 0)
          = rs.countP (fun x => x.their_decision.strategy == 0) + 1 := by
        rw [List.countP_cons]
        simp [h0]
      have hc1 : (r :: rs).countP (fun x => x.their_decision.strategy == 1)
          = rs.countP (fun x => x.their_decision.strategy == 1) := by
        rw [List.countP_cons]
        simp [h0]
      have hstep : p.report_result r
          = some { p with prior_no_collab := p.prior_no_collab + 1 } := by
        simp [report_result, h0]
      have hrec := ih hrest { p with prior_no_collab := p.prior_no_collab + 1 }
      simp only [reportAll, List.foldlM_cons, hstep, Option.bind_eq_bind, Option.some_bind] at hrec ⊢
      rw [hrec, hc0, hc1, Option.some.injEq, EUPlayer.mk.injEq]
      refine ⟨rfl, rfl, ?_, rfl⟩
      push_cast
      ring
    · have hc0 : (r :: rs).countP (fun x => x.their_decision.strategy == 0)
          = rs.countP (fun x => x.their_decision.strategy == 0) := by
        rw [List.countP_cons]
        simp [h1]
      have hc1 : (r :: rs).countP (fun x => x.their_decision.strategy == 1)
          = rs.countP (fun x => x.their_decision.strategy == 1) + 1 := by
        rw [List.countP_cons]
        simp [h1]
      have hstep : p.report_result r
          = some { p with prior_collab := p.prior_collab + 1 } := by
        simp [report_result, h1]
      have hrec := ih hrest { p with prior_collab := p.prior_collab + 1 }
      simp only [reportAll, List.foldlM_cons, hstep, Option.bind_eq_bind, Option.some_bind] at hrec ⊢
      rw [hrec, hc0, hc1, Option.some.injEq, EUPlayer.mk.injEq]
      refine ⟨rfl, rfl, rfl, ?_⟩
      push_cast
      ring

/-- **C6.** Starting from the default priors `(1, 1)`, after reports with
`k` opponent moves of strategy 1 (collaborative) and `m` of strategy 0, the
collaboration probability used by the next `get_decision` is
`(k+1)/(k+m+2)`. -/
theorem c6_beta_posterior_mean (game : Designs) (u : EF → EF) (rs : List Result)
    (h : ∀ r ∈ rs,
      r.their_decision.strategy = 0 ∨ r.their_decision.strategy = 1) :
    ∃ p' : EUPlayer,
      (EUPlayer.mk game u 1 1).reportAll rs = some p'
      ∧ p'.p_collab = .fin
          (((rs.countP (fun r => r.their_decision.strategy == 1) : ℚ) + 1) /
            ((rs.countP (fun r => r.their_decision.strategy == 1) : ℚ) +
              (rs.countP (fun r => r.their_decision.strategy == 0) : ℚ) + 2)) := by
  refine ⟨_, EUPlayer.reportAll_counts rs h (EUPlayer.mk game u 1 1), ?_⟩
  have hk : (0 : ℚ) ≤ (rs.countP (fun r => r.their_decision.strategy == 1) : ℚ) := by
    positivity
  have hm : (0 : ℚ) ≤ (rs.countP (fun r => r.their_decision.strategy == 0) : ℚ) := by
    positivity
  simp only [EUPlayer.p_collab]
  rw [if_pos ⟨by linarith, by linarith⟩]
  congr 1
  rw [div_eq_div_iff (by linarith) (by linarith)]
  ring

/-- Witness for C6: one collaborative and one independent report give
posterior mean `1/2`. -/
theorem c6_witness :
    ∃ p' : EUPlayer,
      (EUPlayer.mk [[[.fin 3, .fin 0], [.fin 5, .fin 1]]] id 1 1).reportAll
          [Result.mk ⟨0, 0⟩ (.fin 0) ⟨1, 0⟩ (.fin 5),
           Result.mk ⟨0, 0⟩ (.fin 3) ⟨0, 0⟩ (.fin 3)] = some p'
      ∧ p'.p_collab = .fin
          ((([Result.mk ⟨0, 0⟩ (.fin 0) ⟨1, 0⟩ (.fin 5),
              Result.mk ⟨0, 0⟩ (.fin 3) ⟨0, 0⟩ (.fin 3)].countP
                (fun r => r.their_decision.strategy == 1) : ℚ) + 1) /
            (([Result.mk ⟨0, 0⟩ (.fin 0) ⟨1, 0⟩ (.fin 5),
               Result.mk ⟨0, 0⟩ (.fin 3) ⟨0, 0⟩ (.fin 3)].countP
                (fun r => r.their_decision.strategy == 1) : ℚ) +
              ([Result.mk ⟨0, 0⟩ (.fin 0) ⟨1, 0⟩ (.fin 5),
                Result.mk ⟨0, 0⟩ (.fin 3) ⟨0, 0⟩ (.fin 3)].countP
                (fun r => r.their_decision.strategy == 0) : ℚ) + 2)) :=
  c6_beta_posterior_mean [[[.fin 3, .fin 0], [.fin 5, .fin 1]]] id _
    (by intro r hr; fin_cases hr <;> simp)

/-! ## Order facts for `EF` (restricted to non-`nan` values, `EF.lt` is a
strict total order) -/

theorem EF.lt_irrefl (x : EF) : EF.lt x x = false := by
  cases x <;> simp [EF.lt]

theorem EF.lt_asymm {x y : EF} (h : EF.lt x y = true) : EF.lt y x = false := by
  cases x <;> cases y <;> simp_all [EF.lt] <;> linarith

theorem EF.lt_trans' {x y z : EF} (hxy : EF.lt x y = true)
    (hyz : EF.lt y z = true) : EF.lt x z = true := by
  cases x <;> cases y <;> cases z <;> simp_all [EF.lt] <;> linarith

/-- Connectivity on non-`nan` values: a failed strict comparison means the
reverse comparison holds or the values are equal. -/
theorem EF.lt_connex {x y : EF} (hx : x.isNaN = false) (hy : y.isNaN = false)
    (h : EF.lt x y = false) : EF.lt y x = true ∨ y = x := by
  cases x <;> cases y <;> simp_all [EF.lt, EF.isNaN]
  exact h.lt_or_eq

/-- `x ≤ bv < k` gives `x < k` (non-`nan` `x`, `bv`). -/
theorem EF.lt_of_not_lt_of_lt {x bv k : EF} (hx : x.isNaN = false)
    (hbv : bv.isNaN = false) (h1 : EF.lt bv x = false)
    (h2 : EF.lt bv k = true) : EF.lt x k = true := by
  rcases EF.lt_connex hbv hx h1 with h | h
  · exact EF.lt_trans' h h2
  · rw [h.symm] at h2
    exact h2

/-! ## Correctness of the NumPy reductions -/

/-- `i` is the position of the first maximum of `l` in the `EF.lt` order. -/
def IsFirstMax (l : List EF) (i : Nat) : Prop :=
  i < l.length ∧
  (∀ j < l.length, EF.lt (l.getD i .nan) (l.getD j .nan) = false) ∧
  (∀ j < i, EF.lt (l.getD j .nan) (l.getD i .nan) = true)

/-- `i` is the position of the first `nan` of `l`. -/
def IsFirstNaN (l : List EF) (i : Nat) : Prop :=
  i < l.length ∧ (l.getD i .nan).isNaN = true ∧
  (∀ j < i, (l.getD j .nan).isNaN = false)

/-- What `np.argmax` returns: the first `nan` position if a `nan` is present,
the first maximum position otherwise. -/
def IsNpArgmax (l : List EF) (i : Nat) : Prop :=
  IsFirstNaN l i ∨ ((∀ x ∈ l, x.isNaN = false) ∧ IsFirstMax l i)

/-- `i` is the position of the first maximum over the non-`nan` entries of
`l` (what `np.nanargmax` returns). -/
def IsNanArgmax (l : List EF) (i : Nat) : Prop :=
  i < l.length ∧ (l.getD i .nan).isNaN = false ∧
  (∀ j < l.length, (l.getD j .nan).isNaN = false →
    EF.lt (l.getD i .nan) (l.getD j .nan) = false) ∧
  (∀ j < i, (l.getD j .nan).isNaN = false →
    EF.lt (l.getD j .nan) (l.getD i .nan) = true)

/-- Loop invariant of `argmaxAux` on `nan`-free input: the scan either keeps
the incoming best index, in which case no entry beats the incoming best
value, or lands on a position `k` of the tail holding a value that beats the
incoming best, is beaten by no entry, and strictly beats all earlier tail
entries. -/
theorem argmaxAux_spec (xs : List EF) :
    ∀ (bi : Nat) (bv : EF) (i : Nat), bv.isNaN = false →
    (∀ x ∈ xs, x.isNaN = false) →
    (argmaxAux xs bi bv i = bi ∧
      ∀ j < xs.length, EF.lt bv (xs.getD j .nan) = false)
    ∨ (∃ k < xs.length, argmaxAux xs bi bv i = i + k ∧
        EF.lt bv (xs.getD k .nan) = true ∧
        (∀ j < xs.length,
          EF.lt (xs.getD k .nan) (xs.getD j .nan) = false) ∧
        (∀ j < k, EF.lt (xs.getD j .nan) (xs.getD k .nan) = true)) := by
  induction xs with
  | nil =>
    intro bi bv i _ _
    left
    exact ⟨rfl, by simp⟩
  | cons x xs ih =>
    intro bi bv i hbv hnn
    have hx : x.isNaN = false := hnn x (List.mem_cons_self x xs)
    have hxs : ∀ y ∈ xs, y.isNaN = false :=
      fun y hy => hnn y (List.mem_cons_of_mem x hy)
    cases hcmp : EF.lt bv x with
    | true =>
      have step : argmaxAux (x :: xs) bi bv i = argmaxAux xs i x (i + 1) := by
        simp [argmaxAux, hcmp]
      rcases ih i x (i + 1) hx hxs with ⟨hr, hall⟩ | ⟨k, hk, hr, hbase, hmax, hfirst⟩
      · right
        refine ⟨0, by simp, by simp [step, hr], by simpa using hcmp, ?_, by omega⟩
        intro j hj
        cases j with
        | zero => simpa using EF.lt_irrefl x
        | succ j =>
          simp only [List.getD_cons_zero, List.getD_cons_succ]
          exact hall j (by simpa using hj)
      · right
        refine ⟨k + 1, by simpa using hk, by rw [step, hr]; omega, ?_, ?_, ?_⟩
        · simpa using EF.lt_trans' hcmp hbase
        · intro j hj
          cases j with
          | zero => simpa using EF.lt_asymm hbase
          | succ j =>
            simp only [List.getD_cons_succ]
            exact hmax j (by simpa using hj)
        · intro j hj
          cases j with
          | zero => simpa using hbase
          | succ j =>
            simp only [List.getD_cons_succ]
            exact hfirst j (by omega)
    | false =>
      have step : argmaxAux (x :: xs) bi bv i = argmaxAux xs bi bv (i + 1) := by
        simp [argmaxAux, hcmp]
      rcases ih bi bv (i + 1) hbv hxs with ⟨hr, hall⟩ | ⟨k, hk, hr, hbase, hmax, hfirst⟩
      · left
        refine ⟨by rw [step, hr], ?_⟩
        intro j hj
        cases j with
        | zero => simpa using hcmp
        | succ j =>
          simp only [List.getD_cons_succ]
          exact hall j (by simpa using hj)
      · right
        refine ⟨k + 1, by simpa using hk, by rw [step, hr]; omega, ?_, ?_, ?_⟩
        · simpa using hbase
        · intro j hj
          cases j with
          | zero =>
            simpa using EF.lt_asymm (EF.lt_of_not_lt_of_lt hx hbv hcmp hbase)
          | succ j =>
            simp only [List.getD_cons_succ]
            exact hmax j (by simpa using hj)
        · intro j hj
          cases j with
          | zero => simpa using EF.lt_of_not_lt_of_lt hx hbv hcmp hbase
          | succ j =>
            simp only [List.getD_cons_succ]
            exact hfirst j (by omega)

/-- A successful `findIdx?` for `EF.isNaN` returns the first `nan`
position. -/
theorem findIdx?_isNaN_spec : ∀ (l : List EF) (i : Nat),
    l.findIdx? EF.isNaN = some i → IsFirstNaN l i := by
  intro l
  induction l with
  | nil => intro i h; simp [List.findIdx?] at h
  | cons x xs ih =>
    intro i h
    rw [List.findIdx?_cons] at h
    cases hx : x.isNaN with
    | true =>
      rw [hx] at h
      simp only [if_pos] at h
      cases h
      exact ⟨by simp, by simpa using hx, by omega⟩
    | false =>
      rw [hx] at h
      simp only [Bool.false_eq_true, if_false, List.findIdx?_succ] at h
      rcases Option.map_eq_some'.mp h with ⟨j, hj, rfl⟩
      obtain ⟨hlen, hnan, hfirst⟩ := ih j hj
      refine ⟨by simpa using hlen, by simpa using hnan, ?_⟩
      intro m hm
      cases m with
      | zero => simpa using hx
      | succ m =>
        simp only [List.getD_cons_succ]
        exact hfirst m (by omega)

/-- `np.argmax` correctness: on a nonempty array it returns the first `nan`
position if a `nan` is present, else the first maximum position. -/
theorem argmaxNp_spec (l : List EF) (hne : l ≠ []) : IsNpArgmax l (argmaxNp l) := by
  cases hf : l.findIdx? EF.isNaN with
  | some i =>
    have hi : argmaxNp l = i := by simp [argmaxNp, hf]
    rw [hi]
    exact Or.inl (findIdx?_isNaN_spec l i hf)
  | none =>
    have hnn : ∀ x ∈ l, x.isNaN = false := List.findIdx?_eq_none_iff.mp hf
    right
    refine ⟨hnn, ?_⟩
    match l, hne, hf, hnn with
    | x :: xs, _, hf, hnn =>
      have hstep : argmaxNp (x :: xs) = argmaxAux xs 0 x 1 := by
        simp [argmaxNp, hf]
      rw [hstep]
      have hx : x.isNaN = false := hnn x (List.mem_cons_self x xs)
      have hxs : ∀ y ∈ xs, y.isNaN = false :=
        fun y hy => hnn y (List.mem_cons_of_mem x hy)
      rcases argmaxAux_spec xs 0 x 1 hx hxs with
        ⟨hr, hall⟩ | ⟨k, hk, hr, hbase, hmax, hfirst⟩
      · refine ⟨by rw [hr]; simp, ?_, by rw [hr]; omega⟩
        intro j hj
        rw [hr]
        cases j with
        | zero => simpa using EF.lt_irrefl x
        | succ j =>
          simp only [List.getD_cons_zero, List.getD_cons_succ]
          exact hall j (by simpa using hj)
      · rw [hr]
        refine ⟨by simp only [List.length_cons]; omega, ?_, ?_⟩
        · intro j hj
          have h1k : 1 + k = k + 1 := by omega
          rw [h1k]
          cases j with
          | zero => simpa using EF.lt_asymm hbase
          | succ j =>
            simp only [List.getD_cons_succ]
            exact hmax j (by simpa using hj)
        · intro j hj
          have h1k : 1 + k = k + 1 := by omega
          rw [h1k] at hj ⊢
          cases j with
          | zero => simpa using hbase
          | succ j =>
            simp only [List.getD_cons_succ]
            exact hfirst j (by omega)

/-- Loop invariant of `nanargmaxAux` with a non-`nan` incumbent best. -/
theorem nanargmaxAux_some_spec (xs : List EF) :
    ∀ (bi i : Nat) (bv : EF), bv.isNaN = false →
    (nanargmaxAux xs i (some (bi, bv)) = some (bi, bv) ∧
      ∀ j < xs.length, (xs.getD j .nan).isNaN = false →
        EF.lt bv (xs.getD j .nan) = false)
    ∨ (∃ k < xs.length,
        nanargmaxAux xs i (some (bi, bv)) = some (i + k, xs.getD k .nan) ∧
        (xs.getD k .nan).isNaN = false ∧
        EF.lt bv (xs.getD k .nan) = true ∧
        (∀ j < xs.length, (xs.getD j .nan).isNaN = false →
          EF.lt (xs.getD k .nan) (xs.getD j .nan) = false) ∧
        (∀ j < k, (xs.getD j .nan).isNaN = false →
          EF.lt (xs.getD j .nan) (xs.getD k .nan) = true)) := by
  induction xs with
  | nil =>
    intro bi i bv _
    left
    exact ⟨rfl, by simp⟩
  | cons x xs ih =>
    intro bi i bv hbv
    cases hx : x.isNaN with
    | true =>
      have step : nanargmaxAux (x :: xs) i (some (bi, bv))
          = nanargmaxAux xs (i + 1) (some (bi, bv)) := by
        simp [nanargmaxAux, hx]
      rcases ih bi (i + 1) bv hbv with ⟨hr, hall⟩ | ⟨k, hk, hr, hknn, hbase, hmax, hfirst⟩
      · left
        refine ⟨by rw [step, hr], ?_⟩
        intro j hj hjn
        cases j with
        | zero => simp_all
        | succ j =>
          simp only [List.getD_cons_succ] at hjn ⊢
          exact hall j (by simpa using hj) hjn
      · right
        refine ⟨k + 1, by simpa using hk, ?_, by simpa using hknn,
          by simpa using hbase, ?_, ?_⟩
        · rw [step, hr]
          simp only [List.getD_cons_succ]
          congr 2
          omega
        · intro j hj hjn
          cases j with
          | zero => simp_all
          | succ j =>
            simp only [List.getD_cons_succ] at hjn ⊢
            exact hmax j (by simpa using hj) hjn
        · intro j hj hjn
          cases j with
          | zero => simp_all
          | succ j =>
            simp only [List.getD_cons_succ] at hjn ⊢
            exact hfirst j (by omega) hjn
    | false =>
      cases hcmp : EF.lt bv x with
      | true =>
        have step : nanargmaxAux (x :: xs) i (some (bi, bv))
            = nanargmaxAux xs (i + 1) (some (i, x)) := by
          simp [nanargmaxAux, hx, hcmp]
        rcases ih i (i + 1) x hx with ⟨hr, hall⟩ | ⟨k, hk, hr, hknn, hbase, hmax, hfirst⟩
        · right
          refine ⟨0, by simp, by rw [step, hr]; simp, by simpa using hx,
            by simpa using hcmp, ?_, by omega⟩
          intro j hj hjn
          cases j with
          | zero => simpa using EF.lt_irrefl x
          | succ j =>
            simp only [List.getD_cons_zero, List.getD_cons_succ] at hjn ⊢
            exact hall j (by simpa using hj) hjn
        · right
          refine ⟨k + 1, by simpa using hk, ?_, by simpa using hknn,
            by simpa using EF.lt_trans' hcmp hbase, ?_, ?_⟩
          · rw [step, hr]
            simp only [List.getD_cons_succ]
            congr 2
            omega
          · intro j hj hjn
            cases j with
            | zero =>
              simpa using EF.lt_asymm hbase
            | succ j =>
              simp only [List.getD_cons_succ] at hjn ⊢
              exact hmax j (by simpa using hj) hjn
          · intro j hj hjn
            cases j with
            | zero => simpa using hbase
            | succ j =>
              simp only [List.getD_cons_succ] at hjn ⊢
              exact hfirst j (by omega) hjn
      | false =>
        have step : nanargmaxAux (x :: xs) i (some (bi, bv))
            = nanargmaxAux xs (i + 1) (some (bi, bv)) := by
          simp [nanargmaxAux, hx, hcmp]
        rcases ih bi (i + 1) bv hbv with ⟨hr, hall⟩ | ⟨k, hk, hr, hknn, hbase, hmax, hfirst⟩
        · left
          refine ⟨by rw [step, hr], ?_⟩
          intro j hj hjn
          cases j with
          | zero => simpa using hcmp
          | succ j =>
            simp only [List.getD_cons_succ] at hjn ⊢
            exact hall j (by simpa using hj) hjn
        · right
          refine ⟨k + 1, by simpa using hk, ?_, by simpa using hknn,
            by simpa using hbase, ?_, ?_⟩
          · rw [step, hr]
            simp only [List.getD_cons_succ]
            congr 2
            omega
          · intro j hj hjn
            cases j with
            | zero =>
              simpa using EF.lt_asymm (EF.lt_of_not_lt_of_lt hx hbv hcmp hbase)
            | succ j =>
              simp only [List.getD_cons_succ] at hjn ⊢
              exact hmax j (by simpa using hj) hjn
          · intro j hj hjn
            cases j with
            | zero => simpa using EF.lt_of_not_lt_of_lt hx hbv hcmp hbase
            | succ j =>
              simp only [List.getD_cons_succ] at hjn ⊢
              exact hfirst j (by omega) hjn

/-- Loop invariant of `nanargmaxAux` with no incumbent: either everything is
`nan` (and the `ValueError` case is reached) or the scan finds the first
maximum over non-`nan` entries. -/
theorem nanargmaxAux_none_spec : ∀ (xs : List EF) (i : Nat),
    (nanargmaxAux xs i none = none ∧ ∀ x ∈ xs, x.isNaN = true)
    ∨ (∃ k < xs.length,
        nanargmaxAux xs i none = some (i + k, xs.getD k .nan) ∧
        (xs.getD k .nan).isNaN = false ∧
        (∀ j < xs.length, (xs.getD j .nan).isNaN = false →
          EF.lt (xs.getD k .nan) (xs.getD j .nan) = false) ∧
        (∀ j < k, (xs.getD j .nan).isNaN = false →
          EF.lt (xs.getD j .nan) (xs.getD k .nan) = true)) := by
  intro xs
  induction xs with
  | nil =>
    intro i
    left
    exact ⟨rfl, by simp⟩
  | cons x xs ih =>
    intro i
    cases hx : x.isNaN with
    | true =>
      have step : nanargmaxAux (x :: xs) i none = nanargmaxAux xs (i + 1) none := by
        simp [nanargmaxAux, hx]
      rcases ih (i + 1) with ⟨hr, hall⟩ | ⟨k, hk, hr, hknn, hmax, hfirst⟩
      · left
        refine ⟨by rw [step, hr], ?_⟩
        intro y hy
        rcases List.mem_cons.mp hy with rfl | hy
        · exact hx
        · exact hall y hy
      · right
        refine ⟨k + 1, by simpa using hk, ?_, by simpa using hknn, ?_, ?_⟩
        · rw [step, hr]
          simp only [List.getD_cons_succ]
          congr 2
          omega
        · intro j hj hjn
          cases j with
          | zero => simp_all
          | succ j =>
            simp only [List.getD_cons_succ] at hjn ⊢
            exact hmax j (by simpa using hj) hjn
        · intro j hj hjn
          cases j with
          | zero => simp_all
          | succ j =>
            simp only [List.getD_cons_succ] at hjn ⊢
            exact hfirst j (by omega) hjn
    | false =>
      have step : nanargmaxAux (x :: xs) i none
          = nanargmaxAux xs (i + 1) (some (i, x)) := by
        simp [nanargmaxAux, hx]
      rcases nanargmaxAux_some_spec xs i (i + 1) x hx with
        ⟨hr, hall⟩ | ⟨k, hk, hr, hknn, hbase, hmax, hfirst⟩
      · right
        refine ⟨0, by simp, by rw [step, hr]; simp, by simpa using hx, ?_, by omega⟩
        intro j hj hjn
        cases j with
        | zero => simpa using EF.lt_irrefl x
        | succ j =>
          simp only [List.getD_cons_zero, List.getD_cons_succ] at hjn ⊢
          exact hall j (by simpa using hj) hjn
      · right
        refine ⟨k + 1, by simpa using hk, ?_, by simpa using hknn, ?_, ?_⟩
        · rw [step, hr]
          simp only [List.getD_cons_succ]
          congr 2
          omega
        · intro j hj hjn
          cases j with
          | zero => simpa using EF.lt_asymm hbase
          | succ j =>
            simp only [List.getD_cons_succ] at hjn ⊢
            exact hmax j (by simpa using hj) hjn
        · intro j hj hjn
          cases j with
          | zero => simpa using hbase
          | succ j =>
            simp only [List.getD_cons_succ] at hjn ⊢
            exact hfirst j (by omega) hjn

/-- `np.nanargmax` correctness: a successful result is the first maximum
over the non-`nan` entries. -/
theorem nanargmax_spec (l : List EF) (i : Nat) (h : nanargmax l = some i) :
    IsNanArgmax l i := by
  unfold nanargmax at h
  rcases nanargmaxAux_none_spec l 0 with ⟨hr, _⟩ | ⟨k, hk, hr, hknn, hmax, hfirst⟩
  · rw [hr] at h
    simp at h
  · rw [hr] at h
    simp only [Option.map_some', Option.some.injEq] at h
    rw [← h]
    exact ⟨by simpa using hk, by simpa using hknn, by simpa using hmax,
      by simpa using hfirst⟩

/-- `np.nanargmax` raises exactly on all-`nan` input. -/
theorem nanargmax_none_iff (l : List EF) :
    nanargmax l = none ↔ ∀ x ∈ l, x.isNaN = true := by
  unfold nanargmax
  rcases nanargmaxAux_none_spec l 0 with ⟨hr, hall⟩ | ⟨k, hk, hr, hknn, _, _⟩
  · rw [hr]
    exact iff_of_true rfl hall
  · rw [hr]
    simp only [Option.map_some', reduceCtorEq, false_iff]
    intro hall
    have hmem : l.getD k .nan ∈ l := by
      rw [List.getD_eq_getElem _ _ hk]
      exact List.getElem_mem hk
    rw [hall _ hmem] at hknn
    cases hknn

/-- `lt0` distributes over the non-`nan` minimum. -/
theorem LogV.lt0_minV {a b : LogV} (ha : a.isNaN = false) (hb : b.isNaN = false) :
    LogV.lt0 (LogV.minV a b) = (LogV.lt0 a || LogV.lt0 b) := by
  cases a <;> cases b <;>
    simp_all [LogV.minV, LogV.lt0, LogV.isNaN, min_lt_iff]

theorem LogV.isNaN_minV {a b : LogV} (ha : a.isNaN = false)
    (hb : b.isNaN = false) : (LogV.minV a b).isNaN = false := by
  cases a <;> cases b <;> simp_all [LogV.minV, LogV.isNaN]

/-- `np.nanmin(rd) < 0` holds exactly when some entry of `rd` compares below
zero (`nan` entries are skipped by `nanmin` and compare `false`
themselves). -/
theorem lt0_nanminL (l : List LogV) :
    LogV.lt0 (nanminL l) = l.any LogV.lt0 := by
  have key : ∀ (xs : List LogV) (acc : LogV),
      LogV.lt0 (xs.foldl (fun a x =>
        if x.isNaN then a else if a.isNaN then x else LogV.minV a x) acc)
      = (LogV.lt0 acc || xs.any LogV.lt0) := by
    intro xs
    induction xs with
    | nil => intro acc; simp
    | cons x xs ih =>
      intro acc
      cases hx : x.isNaN with
      | true =>
        have hx0 : LogV.lt0 x = false := by
          cases x <;> simp_all [LogV.lt0, LogV.isNaN]
        simp [List.foldl_cons, hx, ih, hx0]
      | false =>
        cases hacc : acc.isNaN with
        | true =>
          have hacc0 : LogV.lt0 acc = false := by
            cases acc <;> simp_all [LogV.lt0, LogV.isNaN]
          simp [List.foldl_cons, hx, hacc, ih, hacc0]
        | false =>
          simp only [List.foldl_cons, hx, hacc, Bool.false_eq_true, if_false,
            ih, LogV.lt0_minV hacc hx, List.any_cons]
          cases LogV.lt0 acc <;> cases LogV.lt0 x <;> simp
  unfold nanminL
  rw [key l .nan]
  simp [LogV.lt0]

/-! ## Claim C5 — the expected-utility decision rule -/

/-- **C5.** A successful `RiskAwareEUplayer.get_decision` picks the
independent design by the NaN-tolerant arg-max of the independent expected
values, picks the collaborative design by the plain `np.argmax` (first `nan`
if present, else first maximum) of the collaborative expected values, and
returns `Decision(0, independent_design)` exactly when every collaborative
expected value is strictly below the best independent expected value (IEEE
comparison, so a `nan` collaborative value defeats the condition); otherwise
it returns `Decision(1, collaborative_design)`. -/
theorem c5_eu_decision (p : EUPlayer) (d : Decision)
    (h : p.get_decision = some d) :
    ∃ i₀, IsNanArgmax p.independent_ev i₀ ∧
      (d.strategy = 0 ∨ d.strategy = 1) ∧
      (d.strategy = 0 ↔
        ∀ v ∈ p.collab_ev,
          EF.lt v (p.independent_ev.getD i₀ .nan) = true) ∧
      (d.strategy = 0 → d.design = i₀) ∧
      (d.strategy = 1 → IsNpArgmax p.collab_ev d.design) := by
  cases hna : nanargmax p.independent_ev with
  | none =>
    rw [EUPlayer.get_decision, hna] at h
    cases h
  | some i₀ =>
    have hd : p.get_decision
        = if p.collab_ev.all
            (fun v => EF.lt v (p.independent_ev.getD i₀ .nan)) then
            some ⟨0, i₀⟩
          else some ⟨1, argmaxNp p.collab_ev⟩ := by
      rw [EUPlayer.get_decision, hna]
    rw [hd] at h
    have hspec := nanargmax_spec p.independent_ev i₀ hna
    have hne : p.collab_ev ≠ [] := by
      have hlen : i₀ < p.independent_ev.length := hspec.1
      have : p.independent_ev.length = p.collab_ev.length := by
        simp [EUPlayer.independent_ev, EUPlayer.collab_ev]
      intro hnil
      rw [this, hnil] at hlen
      simp at hlen
    refine ⟨i₀, hspec, ?_⟩
    cases hall : p.collab_ev.all
        (fun v => EF.lt v (p.independent_ev.getD i₀ .nan)) with
    | true =>
      rw [hall, if_pos rfl, Option.some.injEq] at h
      subst h
      refine ⟨Or.inl rfl, ?_, fun _ => rfl, by simp⟩
      simp only [true_iff]
      exact fun v hv => (List.all_eq_true.mp hall) v hv
    | false =>
      rw [hall, if_neg (by simp), Option.some.injEq] at h
      subst h
      refine ⟨Or.inr rfl, ?_, by simp, fun _ => argmaxNp_spec _ hne⟩
      simp only [Nat.one_ne_zero, false_iff]
      intro hforall
      rw [List.all_eq_true.mpr fun v hv => hforall v hv] at hall
      cases hall

/-- Witness for C5 on a concrete model: uniform beliefs make collaboration
preferable on design matrix `[[3,0],[5,1]]`, so `Decision(1, 0)` comes
back. -/
theorem c5_witness :
    ∃ i₀,
      IsNanArgmax (EUPlayer.independent_ev
        (EUPlayer.mk [[[.fin 3, .fin 0], [.fin 5, .fin 1]]] id 1 1)) i₀ ∧
      (((⟨1, 0⟩ : Decision).strategy = 0 ∨ (⟨1, 0⟩ : Decision).strategy = 1)) ∧
      ((⟨1, 0⟩ : Decision).strategy = 0 ↔
        ∀ v ∈ (EUPlayer.mk [[[.fin 3, .fin 0], [.fin 5, .fin 1]]] id 1 1).collab_ev,
          EF.lt v ((EUPlayer.mk [[[.fin 3, .fin 0], [.fin 5, .fin 1]]]
              id 1 1).independent_ev.getD i₀ .nan) = true) ∧
      ((⟨1, 0⟩ : Decision).strategy = 0 → (⟨1, 0⟩ : Decision).design = i₀) ∧
      ((⟨1, 0⟩ : Decision).strategy = 1 →
        IsNpArgmax (EUPlayer.mk [[[.fin 3, .fin 0], [.fin 5, .fin 1]]]
          id 1 1).collab_ev (⟨1, 0⟩ : Decision).design) :=
  c5_eu_decision (EUPlayer.mk [[[.fin 3, .fin 0], [.fin 5, .fin 1]]] id 1 1)
    ⟨1, 0⟩ (by
      have hr1 : List.range 1 = [0] := by decide
      norm_num [EUPlayer.get_decision, EUPlayer.independent_ev,
        EUPlayer.collab_ev, EUPlayer.p_collab, get_payoff, hr1,
        List.map_cons, List.map_nil, nanargmax, nanargmaxAux, argmaxNp,
        List.findIdx?, EF.isNaN, EF.lt, EF.mul, EF.add, EF.sub, argmaxAux,
        List.all_cons, List.all_nil])

/-! ## Claim C4 — the risk-dominance decision rule -/

/-- The collaborative-design selection rule as the specification words it
(§4.3 step 3): the arg-max of `collaborative_value` *restricted to* the
designs whose risk-dominance index is negative, degenerating to index `0`
when no design qualifies.  This is the spec-side definition used to compare
against the code's masking rule (`RDPlayer.maskedCollab` + `np.argmax`). -/
def specRestrictedCollabDesign (cv : List EF) (rd : List LogV) : Nat :=
  match (List.range cv.length).filter (fun j => LogV.lt0 (rd.getD j .nan)) with
  | [] => 0
  | q :: qs => qs.foldl
      (fun b j => if EF.lt (cv.getD b .nan) (cv.getD j .nan) then j else b) q

/-- A concrete risk-neutral player on two designs.  Design 1 is the only one
whose risk-dominance index is negative (its log-ratio is `log (1/4) < 0`),
but its collaborative value `-1` loses the masked arg-max to the `0` that
masking writes over design 0. -/
def rdCex : RDPlayer :=
  { game := [[[.fin 10, .fin 0], [.fin 0, .fin 1]],
             [[.fin 0, .fin 0], [.fin (21/2), .fin (-1)]]]
    u := id
    their_prior_decision := none }

/-- **C4, counterexample.**  The claim says `collaborative_design` is the
arg-max of `collaborative_value` restricted to the designs with negative
risk-dominance index — here design 1, the only qualifying design.  The code
instead returns `Decision(1, 0)`: the masked product `[1*0, -1*1] = [0, -1]`
has its `np.argmax` at the non-qualifying design 0. -/
theorem c4_counterexample :
    rdCex.get_decision = some ⟨1, 0⟩
    ∧ nanargmax rdCex.independent_value = some 0
    ∧ specRestrictedCollabDesign rdCex.collaborative_value
        (rdCex.risk_dominance 0) = 1 := by
  have hr2 : List.range 2 = [0, 1] := by decide
  refine ⟨?_, ?_, ?_⟩
  · norm_num [RDPlayer.get_decision, RDPlayer.independent_value,
      RDPlayer.risk_dominance, RDPlayer.collaborative_value,
      RDPlayer.maskedCollab, RDPlayer.get_risk_dominance, rdCex, get_payoff,
      hr2, List.map_cons, List.map_nil, nanargmax, nanargmaxAux, argmaxNp,
      argmaxAux, List.findIdx?, EF.isNaN, EF.lt, EF.mul, EF.add, EF.sub,
      EF.div, elog, logHalfSum, nanminL, LogV.minV, LogV.lt0, LogV.isNaN,
      List.zipWith]
  · norm_num [RDPlayer.independent_value, rdCex, get_payoff, hr2,
      List.map_cons, List.map_nil, nanargmax, nanargmaxAux, EF.isNaN, EF.lt]
  · norm_num [specRestrictedCollabDesign, RDPlayer.collaborative_value,
      RDPlayer.risk_dominance, RDPlayer.get_risk_dominance, rdCex, get_payoff,
      hr2, List.map_cons, List.map_nil, List.filter, EF.isNaN, EF.lt, EF.mul,
      EF.add, EF.sub, EF.div, elog, logHalfSum, LogV.lt0, LogV.isNaN]

/-- **C4, amended.**  A successful `RiskAwareRDplayer.get_decision` picks
`independent_design` by the NaN-tolerant arg-max of the strategy-0-vs-0
utilities, and collaborates (`strategy = 1`) exactly when some design's
risk-dominance index compares below zero (the NaN-aware minimum is
negative); in that case the returned design is the `np.argmax` of the
elementwise product `collaborative_value * (risk_dominance < 0)` — which
coincides with the claim's restricted arg-max only when that arg-max's value
beats the `0` written over masked-out designs; otherwise it returns
`Decision(0, independent_design)`. -/
theorem c4_rd_decision (p : RDPlayer) (d : Decision)
    (h : p.get_decision = some d) :
    ∃ i₀, IsNanArgmax p.independent_value i₀ ∧
      (d.strategy = 0 ∨ d.strategy = 1) ∧
      (d.strategy = 1 ↔ ∃ r ∈ p.risk_dominance i₀, LogV.lt0 r = true) ∧
      (d.strategy = 0 → d.design = i₀) ∧
      (d.strategy = 1 → IsNpArgmax (p.maskedCollab i₀) d.design) := by
  cases hna : nanargmax p.independent_value with
  | none =>
    rw [RDPlayer.get_decision, hna] at h
    cases h
  | some i₀ =>
    have hd : p.get_decision
        = if LogV.lt0 (nanminL (p.risk_dominance i₀)) then
            some ⟨1, argmaxNp (p.maskedCollab i₀)⟩
          else some ⟨0, i₀⟩ := by
      rw [RDPlayer.get_decision, hna]
    have hspec := nanargmax_spec _ i₀ hna
    have hne : p.maskedCollab i₀ ≠ [] := by
      have hlen : i₀ < p.independent_value.length := hspec.1
      have hl1 : p.independent_value.length = p.game.length := by
        simp [RDPlayer.independent_value]
      have hl2 : (p.maskedCollab i₀).length = p.game.length := by
        simp [RDPlayer.maskedCollab, RDPlayer.collaborative_value,
          RDPlayer.risk_dominance]
      rw [hl1] at hlen
      have hpos : 0 < (p.maskedCollab i₀).length := by omega
      exact List.length_pos.mp hpos
    refine ⟨i₀, hspec, ?_⟩
    rw [hd] at h
    cases hmin : LogV.lt0 (nanminL (p.risk_dominance i₀)) with
    | true =>
      rw [hmin, if_pos rfl, Option.some.injEq] at h
      subst h
      rw [lt0_nanminL] at hmin
      refine ⟨Or.inr rfl, ?_, by simp, fun _ => argmaxNp_spec _ hne⟩
      simp only [true_iff]
      exact List.any_eq_true.mp hmin
    | false =>
      rw [hmin, if_neg (by simp), Option.some.injEq] at h
      subst h
      rw [lt0_nanminL] at hmin
      refine ⟨Or.inl rfl, ?_, fun _ => rfl, by simp⟩
      simp only [Nat.zero_ne_one, false_iff]
      intro hex
      rw [List.any_eq_true.mpr hex] at hmin
      cases hmin

/-- Witness for the amended C4 at the concrete counterexample player. -/
theorem c4_witness :
    ∃ i₀, IsNanArgmax rdCex.independent_value i₀ ∧
      (((⟨1, 0⟩ : Decision).strategy = 0 ∨ (⟨1, 0⟩ : Decision).strategy = 1)) ∧
      ((⟨1, 0⟩ : Decision).strategy = 1 ↔
        ∃ r ∈ rdCex.risk_dominance i₀, LogV.lt0 r = true) ∧
      ((⟨1, 0⟩ : Decision).strategy = 0 → (⟨1, 0⟩ : Decision).design = i₀) ∧
      ((⟨1, 0⟩ : Decision).strategy = 1 →
        IsNpArgmax (rdCex.maskedCollab i₀) (⟨1, 0⟩ : Decision).design) :=
  c4_rd_decision rdCex ⟨1, 0⟩ (by
    have hr2 : List.range 2 = [0, 1] := by decide
    norm_num [RDPlayer.get_decision, RDPlayer.independent_value,
      RDPlayer.risk_dominance, RDPlayer.collaborative_value,
      RDPlayer.maskedCollab, RDPlayer.get_risk_dominance, rdCex, get_payoff,
      hr2, List.map_cons, List.map_nil, nanargmax, nanargmaxAux, argmaxNp,
      argmaxAux, List.findIdx?, EF.isNaN, EF.lt, EF.mul, EF.add, EF.sub,
      EF.div, elog, logHalfSum, nanminL, LogV.minV, LogV.lt0, LogV.isNaN,
      List.zipWith])

/-! ## Dictionary and round-robin enumeration lemmas -/

theorem dictGet_nil (k : String) : dictGet [] k = .fin 0 := rfl

theorem dictGet_cons (a : String × EF) (m : List (String × EF)) (k : String) :
    dictGet (a :: m) k = if a.1 == k then a.2 else dictGet m k := by
  simp only [dictGet, List.find?_cons]
  cases h : (a.1 == k) with
  | true => simp [h]
  | false => simp [h]

theorem dictSet_cons (a : String × EF) (m : List (String × EF)) (k : String)
    (v : EF) :
    dictSet (a :: m) k v
      = if a.1 == k then
          (k, v) :: m.map (fun p => if p.1 == k then (k, v) else p)
        else a :: dictSet m k v := by
  cases ha : (a.1 == k) with
  | true =>
    have ha' : a.1 = k := by simpa using ha
    have hany : (a :: m).any (fun p => p.1 == k) = true := by
      simp [List.any_cons, ha]
    simp [dictSet, hany, ha, ha']
  | false =>
    have ha' : ¬a.1 = k := by simpa using ha
    cases hm : m.any (fun p => p.1 == k) with
    | true =>
      have hany : (a :: m).any (fun p => p.1 == k) = true := by
        simp [List.any_cons, hm]
      simp [dictSet, hany, ha, ha', hm]
    | false =>
      have hany : (a :: m).any (fun p => p.1 == k) = false := by
        simp [List.any_cons, ha, hm]
      simp [dictSet, hany, ha, hm]

theorem dictGet_dictSet_self (m : List (String × EF)) (k : String) (v : EF) :
    dictGet (dictSet m k v) k = v := by
  induction m with
  | nil => simp [dictSet, dictGet_cons, dictGet_nil]
  | cons a m ih =>
    rw [dictSet_cons]
    cases ha : (a.1 == k) with
    | true => simp [dictGet_cons]
    | false => simp [dictGet_cons, ha, ih]

theorem dictGet_dictSet_ne (m : List (String × EF)) (k k' : String) (v : EF)
    (hne : k' ≠ k) : dictGet (dictSet m k v) k' = dictGet m k' := by
  have hkk' : (k == k') = false := by simpa using fun h => hne h.symm
  induction m with
  | nil => simp [dictSet, dictGet_cons, dictGet_nil, hkk']
  | cons a m ih =>
    rw [dictSet_cons]
    cases ha : (a.1 == k) with
    | true =>
      have hak : a.1 = k := by simpa using ha
      have hak' : (a.1 == k') = false := by
        simp only [beq_eq_false_iff_ne, ne_eq]
        intro h
        exact hne (h ▸ hak)
      simp only [if_true, dictGet_cons, hkk', hak', Bool.false_eq_true,
        if_false]
      -- remaining: dictGet of the mapped tail equals dictGet of the tail
      clear ih ha
      induction m with
      | nil => simp
      | cons b mm ihm =>
        simp only [List.map_cons, dictGet_cons]
        cases hb : (b.1 == k) with
        | true =>
          have hbk : b.1 = k := by simpa using hb
          have hbk' : (b.1 == k') = false := by
            simp only [beq_eq_false_iff_ne, ne_eq]
            intro h
            exact hne (h ▸ hbk)
          simp only [beq_iff_eq] at ihm
          simp [hkk', hbk', ihm]
        | false =>
          simp only [beq_iff_eq] at ihm
          simp [hb, ihm]
    | false => simp [dictGet_cons, ha, ih]

/-- `dictSet` makes its key present. -/
theorem dictSet_hasKey (m : List (String × EF)) (k : String) (v : EF) :
    ∃ pr ∈ dictSet m k v, pr.1 = k := by
  induction m with
  | nil => exact ⟨(k, v), by simp [dictSet], rfl⟩
  | cons a m ih =>
    rw [dictSet_cons]
    cases ha : (a.1 == k) with
    | true => exact ⟨(k, v), by simp, rfl⟩
    | false =>
      rcases ih with ⟨pr, hmem, hk⟩
      exact ⟨pr, List.mem_cons_of_mem a hmem, hk⟩

/-- `dictSet` keeps every present key present. -/
theorem dictSet_preserves (m : List (String × EF)) (k k' : String) (v : EF)
    (h : ∃ pr ∈ m, pr.1 = k') : ∃ pr ∈ dictSet m k v, pr.1 = k' := by
  induction m with
  | nil =>
    rcases h with ⟨pr, hmem, _⟩
    cases hmem
  | cons a m ih =>
    rw [dictSet_cons]
    rcases h with ⟨pr, hmem, hk⟩
    cases ha : (a.1 == k) with
    | true =>
      rcases List.mem_cons.mp hmem with rfl | hmem
      · have hprk : pr.1 = k := by simpa using ha
        exact ⟨(k, v), by simp, by rw [← hk, hprk]⟩
      · by_cases hprk : pr.1 = k
        · exact ⟨(k, v), by simp, by rw [← hk, hprk]⟩
        · have hbeq : (pr.1 == k) = false := by simpa using hprk
          exact ⟨pr, List.mem_cons_of_mem _
            (List.mem_map.mpr ⟨pr, hmem, by simp [hbeq]⟩), hk⟩
    | false =>
      rcases List.mem_cons.mp hmem with rfl | hmem
      · exact ⟨pr, List.mem_cons_self pr _, hk⟩
      · rcases ih ⟨pr, hmem, hk⟩ with ⟨pr', hmem', hk'⟩
        exact ⟨pr', List.mem_cons_of_mem a hmem', hk'⟩

/-- Every list member produces its self-pair in the round-robin
enumeration. -/
theorem mem_cwr_self : ∀ (l : List α) (c : α), c ∈ l → (c, c) ∈ cwr l := by
  intro l
  induction l with
  | nil => intro c hc; cases hc
  | cons x xs ih =>
    intro c hc
    rcases List.mem_cons.mp hc with rfl | hc
    · exact List.mem_append_left _
        (List.mem_map.mpr ⟨c, List.mem_cons_self c xs, rfl⟩)
    · exact List.mem_append_right _ (ih c hc)

/-- Both components of an enumerated pair come from the list. -/
theorem cwr_mem : ∀ (l : List α) (p : α × α), p ∈ cwr l → p.1 ∈ l ∧ p.2 ∈ l := by
  intro l
  induction l with
  | nil => intro p hp; cases hp
  | cons x xs ih =>
    intro p hp
    rcases List.mem_append.mp hp with hp | hp
    · rcases List.mem_map.mp hp with ⟨y, hy, rfl⟩
      exact ⟨List.mem_cons_self x xs, hy⟩
    · obtain ⟨h1, h2⟩ := ih p hp
      exact ⟨List.mem_cons_of_mem x h1, List.mem_cons_of_mem x h2⟩

/-- The round-robin enumeration has `n*(n+1)/2` matches. -/
theorem cwr_length : ∀ l : List α,
    2 * (cwr l).length = l.length * (l.length + 1) := by
  intro l
  induction l with
  | nil => simp [cwr]
  | cons x xs ih =>
    simp only [cwr, List.length_append, List.length_map, List.length_cons]
    have expand : 2 * (xs.length + 1 + (cwr xs).length)
        = 2 * (xs.length + 1) + 2 * (cwr xs).length := by ring
    rw [expand, ih]
    ring

/-- Every element of `cwr` over a replicated list is the doubled element. -/
theorem cwr_replicate_mem (c : α) : ∀ (n : Nat) (p : α × α),
    p ∈ cwr (List.replicate n c) → p = (c, c) := by
  intro n
  induction n with
  | zero => intro p hp; cases hp
  | succ n ih =>
    intro p hp
    rw [List.replicate_succ, cwr] at hp
    rcases List.mem_append.mp hp with hp | hp
    · rcases List.mem_map.mp hp with ⟨y, hy, rfl⟩
      have : y = c := by
        rcases List.mem_cons.mp hy with rfl | hy
        · rfl
        · exact List.eq_of_mem_replicate hy
      rw [this]
    · exact ih p hp

/-- Adding two finite values in sequence adds their sum. -/
theorem EF.add_fin_fin (x : EF) (a b : ℚ) :
    EF.add (EF.add x (.fin a)) (.fin b) = EF.add x (.fin (a + b)) := by
  cases x <;> simp [EF.add] <;> ring

/-! ## Claim C3 — per-replicate failure isolation in the Scheduler -/

/-- The game score reconstructed from the logged successful replicates:
each contributes `payoff / num_reps`. -/
def scoreOf (numReps : Nat) (getp : RepLogEntry → EF)
    (logs : List RepLogEntry) : EF :=
  logs.foldl (fun a e => EF.add a (EF.div (getp e) (.fin numReps))) (.fin 0)

theorem scoreOf_append (numReps : Nat) (getp : RepLogEntry → EF)
    (xs : List RepLogEntry) (e : RepLogEntry) :
    scoreOf numReps getp (xs ++ [e])
      = EF.add (scoreOf numReps getp xs) (EF.div (getp e) (.fin numReps)) := by
  simp [scoreOf, List.foldl_append]

/-- Invariant of the replicate loop: every iteration appends exactly one log
entry (a replicate log on success, an error log on failure), the running
scores always equal the reconstruction from the successful logs alone, and
every log entry carries the current game index and an in-range replicate
index. -/
theorem repFold_invariant (designs : Designs) (b1 b2 : AgentBeh σ)
    (n1 n2 : String) (g numReps : Nat) :
    ∀ (l : List Nat) (acc : RepAcc σ), (∀ r ∈ l, r < numReps) →
    acc.sc1 = scoreOf numReps (fun e => e.p1_payoff) acc.rlogs →
    acc.sc2 = scoreOf numReps (fun e => e.p2_payoff) acc.rlogs →
    (∀ e ∈ acc.elogs, ErrEntry.game e = g ∧ ErrEntry.rep e < numReps) →
    (∀ e ∈ acc.rlogs, e.game = g ∧ e.rep < numReps) →
    ((l.foldl (repStep designs b1 b2 n1 n2 g numReps) acc).rlogs.length
        + (l.foldl (repStep designs b1 b2 n1 n2 g numReps) acc).elogs.length
        = acc.rlogs.length + acc.elogs.length + l.length)
    ∧ (l.foldl (repStep designs b1 b2 n1 n2 g numReps) acc).sc1
        = scoreOf numReps (fun e => e.p1_payoff)
            (l.foldl (repStep designs b1 b2 n1 n2 g numReps) acc).rlogs
    ∧ (l.foldl (repStep designs b1 b2 n1 n2 g numReps) acc).sc2
        = scoreOf numReps (fun e => e.p2_payoff)
            (l.foldl (repStep designs b1 b2 n1 n2 g numReps) acc).rlogs
    ∧ (∀ e ∈ (l.foldl (repStep designs b1 b2 n1 n2 g numReps) acc).elogs,
        ErrEntry.game e = g ∧ ErrEntry.rep e < numReps)
    ∧ (∀ e ∈ (l.foldl (repStep designs b1 b2 n1 n2 g numReps) acc).rlogs,
        e.game = g ∧ e.rep < numReps) := by
  intro l
  induction l with
  | nil =>
    intro acc _ h1 h2 h3 h4
    exact ⟨by simp, h1, h2, h3, h4⟩
  | cons a l ih =>
    intro acc hl h1 h2 h3 h4
    have ha : a < numReps := hl a (List.mem_cons_self a l)
    have hl' : ∀ r ∈ l, r < numReps :=
      fun r hr => hl r (List.mem_cons_of_mem a hr)
    simp only [List.foldl_cons]
    cases hp : play designs b1 acc.s1 b2 acc.s2 with
    | ok r t1 t2 =>
      have hstep : repStep designs b1 b2 n1 n2 g numReps acc a
          = { s1 := t1, s2 := t2,
              sc1 := EF.add acc.sc1 (EF.div r.my_payoff (.fin numReps)),
              sc2 := EF.add acc.sc2 (EF.div r.their_payoff (.fin numReps)),
              rlogs := acc.rlogs ++
                [⟨g, a, n1, r.my_decision.design, r.my_decision.strategy,
                  r.my_payoff, n2, r.their_decision.design,
                  r.their_decision.strategy, r.their_payoff⟩],
              elogs := acc.elogs } := by
        simp [repStep, hp]
      rw [hstep]
      refine (ih _ hl' ?_ ?_ ?_ ?_).imp ?_ id
      · simp [scoreOf_append, h1]
      · simp [scoreOf_append, h2]
      · simpa using h3
      · intro e he
        simp only [List.mem_append] at he
        rcases he with he | he
        · exact h4 e he
        · rcases List.mem_singleton.mp he with rfl
          exact ⟨rfl, ha⟩
      · intro hlen
        simp only [List.length_append, List.length_cons, List.length_nil]
          at hlen ⊢
        omega
    | invalid who d t1 t2 =>
      have hstep : repStep designs b1 b2 n1 n2 g numReps acc a
          = { acc with
              s1 := t1
              s2 := t2
              elogs := acc.elogs ++
                [.invalidE g a (match who with | .one => n1 | .two => n2)
                  d.design d.strategy] } := by
        cases who <;> simp [repStep, hp]
      rw [hstep]
      refine (ih _ hl' ?_ ?_ ?_ ?_).imp ?_ id
      · simpa using h1
      · simpa using h2
      · intro e he
        simp only [List.mem_append] at he
        rcases he with he | he
        · exact h3 e he
        · rcases List.mem_singleton.mp he with rfl
          exact ⟨rfl, ha⟩
      · simpa using h4
      · intro hlen
        simp only [List.length_append, List.length_cons, List.length_nil]
          at hlen ⊢
        omega
    | exn t1 t2 =>
      have hstep : repStep designs b1 b2 n1 n2 g numReps acc a
          = { acc with
              s1 := t1
              s2 := t2
              elogs := acc.elogs ++ [.genericE g a n1 n2] } := by
        simp [repStep, hp]
      rw [hstep]
      refine (ih _ hl' ?_ ?_ ?_ ?_).imp ?_ id
      · simpa using h1
      · simpa using h2
      · intro e he
        simp only [List.mem_append] at he
        rcases he with he | he
        · exact h3 e he
        · rcases List.mem_singleton.mp he with rfl
          exact ⟨rfl, ha⟩
      · simpa using h4
      · intro hlen
        simp only [List.length_append, List.length_cons, List.length_nil]
          at hlen ⊢
        omega

/-- Specialization of the loop invariant to a full `runReps` call. -/
theorem runReps_spec (designs : Designs) (b1 b2 : AgentBeh σ) (n1 n2 : String)
    (g numReps : Nat) (s1 s2 : σ) :
    (runReps designs b1 b2 n1 n2 g numReps s1 s2).rlogs.length
        + (runReps designs b1 b2 n1 n2 g numReps s1 s2).elogs.length = numReps
    ∧ (runReps designs b1 b2 n1 n2 g numReps s1 s2).sc1
        = scoreOf numReps (fun e => e.p1_payoff)
            (runReps designs b1 b2 n1 n2 g numReps s1 s2).rlogs
    ∧ (runReps designs b1 b2 n1 n2 g numReps s1 s2).sc2
        = scoreOf numReps (fun e => e.p2_payoff)
            (runReps designs b1 b2 n1 n2 g numReps s1 s2).rlogs
    ∧ (∀ e ∈ (runReps designs b1 b2 n1 n2 g numReps s1 s2).elogs,
        ErrEntry.game e = g ∧ ErrEntry.rep e < numReps)
    ∧ (∀ e ∈ (runReps designs b1 b2 n1 n2 g numReps s1 s2).rlogs,
        e.game = g ∧ e.rep < numReps) := by
  have h := repFold_invariant designs b1 b2 n1 n2 g numReps
    (List.range numReps) ⟨s1, s2, .fin 0, .fin 0, [], []⟩
    (fun r hr => List.mem_range.mp hr) (by simp [scoreOf])
    (by simp [scoreOf]) (by simp) (by simp)
  simpa [runReps, List.length_range] using h

/-- The results of one match step are two `dictSet` updates keyed by the two
constructors' names. -/
theorem matchStep_results (games : List Designs) (reps : Nat → Nat → Nat)
    (numPlayers : Nat) (acc : RunAcc) (c1 c2 : PlayerCtor σ) :
    ∃ v1 v2,
      (matchStep games reps numPlayers acc (c1, c2)).results
        = dictSet (dictSet acc.results c1.name v1) c2.name v2 :=
  ⟨_, _, rfl⟩

/-- Along the match loop, every present key stays present. -/
theorem runFold_preserves (games : List Designs) (reps : Nat → Nat → Nat)
    (numPlayers : Nat) :
    ∀ (pairs : List (PlayerCtor σ × PlayerCtor σ)) (acc : RunAcc) (k : String),
      (∃ pr ∈ acc.results, pr.1 = k) →
      ∃ pr ∈ (pairs.foldl (matchStep games reps numPlayers) acc).results,
        pr.1 = k := by
  intro pairs
  induction pairs with
  | nil => intro acc k h; exact h
  | cons p ps ih =>
    intro acc k h
    simp only [List.foldl_cons]
    refine ih _ k ?_
    rcases matchStep_results games reps numPlayers acc p.1 p.2 with ⟨v1, v2, hres⟩
    rw [hres]
    exact dictSet_preserves _ _ _ _ (dictSet_preserves _ _ _ _ h)

/-- After the loop has processed a pair, both its names are keys. -/
theorem runFold_hasKey (games : List Designs) (reps : Nat → Nat → Nat)
    (numPlayers : Nat) :
    ∀ (pairs : List (PlayerCtor σ × PlayerCtor σ)) (acc : RunAcc)
      (c1 c2 : PlayerCtor σ), (c1, c2) ∈ pairs →
      (∃ pr ∈ (pairs.foldl (matchStep games reps numPlayers) acc).results,
        pr.1 = c1.name)
      ∧ ∃ pr ∈ (pairs.foldl (matchStep games reps numPlayers) acc).results,
        pr.1 = c2.name := by
  intro pairs
  induction pairs with
  | nil => intro acc c1 c2 h; cases h
  | cons p ps ih =>
    intro acc c1 c2 h
    simp only [List.foldl_cons]
    rcases List.mem_cons.mp h with rfl | h
    · rcases matchStep_results games reps numPlayers acc c1 c2 with ⟨v1, v2, hres⟩
      constructor
      · refine runFold_preserves games reps numPlayers ps _ c1.name ?_
        rw [hres]
        exact dictSet_preserves _ _ _ _ (dictSet_hasKey _ _ _)
      · refine runFold_preserves games reps numPlayers ps _ c2.name ?_
        rw [hres]
        exact dictSet_hasKey _ _ _
    · exact ih _ c1 c2 h

/-- **C3.**  Error containment in `Tournament.run`: (1) every replicate of a
game produces exactly one log entry — a replicate log on success, an error
log (invalid-decision or generic) on failure — so failures are absorbed at
single-replicate granularity; (2) each side's game score is exactly the sum
of `payoff / num_reps` over the *successful* replicates (failed replicates
credit neither side yet still leave the originally drawn `num_reps` in the
denominator); (3) every error entry carries the game index, an in-range
replicate index and the offending identity (by construction of `ErrEntry`);
and (4) `run` always returns a result map containing a bucket for every
player's display name, no matter how many replicates failed. -/
theorem c3_per_replicate_errors :
    (∀ (σ : Type) (designs : Designs) (b1 b2 : AgentBeh σ) (n1 n2 : String)
      (g numReps : Nat) (s1 s2 : σ),
      (runReps designs b1 b2 n1 n2 g numReps s1 s2).rlogs.length
          + (runReps designs b1 b2 n1 n2 g numReps s1 s2).elogs.length = numReps
      ∧ (runReps designs b1 b2 n1 n2 g numReps s1 s2).sc1
          = scoreOf numReps (fun e => e.p1_payoff)
              (runReps designs b1 b2 n1 n2 g numReps s1 s2).rlogs
      ∧ (runReps designs b1 b2 n1 n2 g numReps s1 s2).sc2
          = scoreOf numReps (fun e => e.p2_payoff)
              (runReps designs b1 b2 n1 n2 g numReps s1 s2).rlogs
      ∧ (∀ e ∈ (runReps designs b1 b2 n1 n2 g numReps s1 s2).elogs,
          ErrEntry.game e = g ∧ ErrEntry.rep e < numReps))
    ∧ (∀ (σ : Type) (cfg : TConfig σ), cfg.games ≠ [] →
        ∀ c ∈ cfg.players, ∃ pr ∈ (run cfg).results, pr.1 = c.name) := by
  constructor
  · intro σ designs b1 b2 n1 n2 g numReps s1 s2
    obtain ⟨hlen, hsc1, hsc2, herr, _⟩ :=
      runReps_spec designs b1 b2 n1 n2 g numReps s1 s2
    exact ⟨hlen, hsc1, hsc2, herr⟩
  · intro σ cfg _ c hc
    exact (runFold_hasKey cfg.games cfg.reps cfg.players.length
      (cwr cfg.players) ⟨0, [], [], [], [], []⟩ c c
      (mem_cwr_self cfg.players c hc)).1

/-! ## Concrete tournament fixtures -/

/-- The one-design game `[[3,0],[5,1]]` of the null-player examples. -/
def G3 : Designs := [[[.fin 3, .fin 0], [.fin 5, .fin 1]]]

/-- Behaviour of the `hunt.player` null baseline: always `Decision(0, 0)`,
results ignored. -/
def nullB : AgentBeh Unit :=
  { get_decision := fun s => some (⟨0, 0⟩, s)
    report_result := fun s _ => some s }

/-- Constructor of the null player (display name `"null"`). -/
def nullCtor : PlayerCtor Unit :=
  { name := "null", make := fun _ => (nullB, ()) }

/-- `n` same-named null players, the single game `G3`, fixed replicate
count `r`. -/
def c8cfg (n r : Nat) : TConfig Unit :=
  { players := List.replicate n nullCtor
    games := [G3]
    reps := fun _ _ => r }

/-- Witness for C3 at a concrete two-player configuration. -/
theorem c3_witness :
    ((c8cfg 2 1).games ≠ [] ∧ nullCtor ∈ (c8cfg 2 1).players)
    ∧ ∃ pr ∈ (run (c8cfg 2 1)).results, pr.1 = nullCtor.name :=
  ⟨⟨List.cons_ne_nil G3 [], List.mem_cons_self nullCtor [nullCtor]⟩,
   c3_per_replicate_errors.2 Unit (c8cfg 2 1) (List.cons_ne_nil G3 [])
     nullCtor (List.mem_cons_self nullCtor [nullCtor])⟩

/-! ## Claim C7 — per-match aggregation and the halving rule -/

/-- The contribution of one match to the bucket of `name`: each side whose
display name is `name` adds its match score, times the halving factor
(applied exactly when the two sides' display names are equal), divided by
the player count. -/
def matchContrib (games : List Designs) (numPlayers : Nat) (repf : Nat → Nat)
    (c1 c2 : PlayerCtor σ) (name : String) (acc : EF) : EF :=
  let r := runMatch c1 c2 games repf
  let factor : EF := if c1.name = c2.name then .fin (1/2) else .fin 1
  let acc1 := if c1.name = name
    then EF.add acc (EF.div (EF.mul r.ms1 factor) (.fin numPlayers)) else acc
  if c2.name = name
    then EF.add acc1 (EF.div (EF.mul r.ms2 factor) (.fin numPlayers)) else acc1

/-- Per-name accumulation over the match list, threading the match counter
that indexes the replication oracle. -/
def specNameScore (games : List Designs) (reps : Nat → Nat → Nat) (N : Nat)
    (name : String) : List (PlayerCtor σ × PlayerCtor σ) → Nat → EF → EF
  | [], _, acc => acc
  | p :: ps, m, acc =>
      specNameScore games reps N name ps (m + 1)
        (matchContrib games N (reps m) p.1 p.2 name acc)

/-- One match step changes the bucket of `name` by exactly its
`matchContrib`. -/
theorem matchStep_dictGet (games : List Designs) (reps : Nat → Nat → Nat)
    (N : Nat) (acc : RunAcc) (c1 c2 : PlayerCtor σ) (name : String) :
    dictGet ((matchStep games reps N acc (c1, c2)).results) name
      = matchContrib games N (reps acc.m) c1 c2 name
          (dictGet acc.results name) := by
  simp only [matchStep, matchContrib]
  by_cases h2 : c2.name = name
  · rw [← h2, dictGet_dictSet_self]
    by_cases h1 : c1.name = c2.name
    · rw [← h1, dictGet_dictSet_self]
      simp
    · have hne : c2.name ≠ c1.name := fun h => h1 h.symm
      rw [dictGet_dictSet_ne _ _ _ _ hne]
      simp [h1]
  · rw [dictGet_dictSet_ne _ _ _ _ (fun h => h2 h.symm)]
    by_cases h1 : c1.name = name
    · rw [← h1, dictGet_dictSet_self]
      have h2' : ¬c2.name = c1.name := fun h => h2 (h1 ▸ h)
      simp [h2']
    · rw [dictGet_dictSet_ne _ _ _ _ (fun h => h1 h.symm)]
      simp [h1, h2]

/-- The bucket of `name` after the whole match loop is the fold of the
per-match contributions. -/
theorem runFold_dictGet (games : List Designs) (reps : Nat → Nat → Nat)
    (N : Nat) (name : String) :
    ∀ (pairs : List (PlayerCtor σ × PlayerCtor σ)) (acc : RunAcc),
      dictGet ((pairs.foldl (matchStep games reps N) acc).results) name
        = specNameScore games reps N name pairs acc.m
            (dictGet acc.results name) := by
  intro pairs
  induction pairs with
  | nil => intro acc; simp [specNameScore]
  | cons p ps ih =>
    intro acc
    simp only [List.foldl_cons, specNameScore]
    rw [ih]
    have hm : (matchStep games reps N acc p).m = acc.m + 1 := rfl
    rw [hm, matchStep_dictGet games reps N acc p.1 p.2 name]

/-- **C7, amended.**  After every match, each side's match score divided by
the player count is added into the bucket keyed by that side's display
name, halved for each side exactly when *the two sides' display names are
equal* — in particular also for two distinct constructors that share a
display name, not only for a true self-pair; buckets are keyed by display
name, so same-named configurations accumulate into one bucket.  Formally:
for every name, the final bucket value is the fold of `matchContrib` (whose
halving condition is name equality) over the round-robin match list. -/
theorem c7_name_keyed_halving (σ : Type) (cfg : TConfig σ)
    (_hg : cfg.games ≠ []) (name : String) :
    dictGet (run cfg).results name
      = specNameScore cfg.games cfg.reps cfg.players.length name
          (cwr cfg.players) 0 (.fin 0) := by
  have h := runFold_dictGet cfg.games cfg.reps cfg.players.length name
    (cwr cfg.players) ⟨0, [], [], [], [], []⟩
  simpa [run, dictGet] using h

/-- A player constructor named `"X"` that plays `Decision(0, 0)`. -/
def ctorA : PlayerCtor Unit :=
  { name := "X"
    make := fun _ =>
      ({ get_decision := fun s => some (⟨0, 0⟩, s)
         report_result := fun s _ => some s }, ()) }

/-- A *different* player constructor, also named `"X"`, that plays
`Decision(1, 0)`. -/
def ctorB : PlayerCtor Unit :=
  { name := "X"
    make := fun _ =>
      ({ get_decision := fun s => some (⟨1, 0⟩, s)
         report_result := fun s _ => some s }, ()) }

/-- Two distinct same-named constructors, one game, one replicate. -/
def cfg7ex : TConfig Unit :=
  { players := [ctorA, ctorB]
    games := [G3]
    reps := fun _ _ => 1 }

/-- The aggregation rule as the spec words it (§4.5 step 5): halving applies
exactly to a self-pair, i.e. *the same constructor* (the same position of
the player list) matched with itself.  Only the final score map is
computed; the matches are enumerated over position-tagged constructors so
that "same constructor" is position equality. -/
def specResultsSelfPair (cfg : TConfig σ) : List (String × EF) :=
  ((cwr cfg.players.enum).foldl (fun st pair =>
    let c1 := pair.1.2
    let c2 := pair.2.2
    let r := runMatch c1 c2 cfg.games (cfg.reps st.1)
    let factor : EF := if pair.1.1 = pair.2.1 then .fin (1/2) else .fin 1
    let res1 := dictSet st.2 c1.name
      (EF.add (dictGet st.2 c1.name)
        (EF.div (EF.mul r.ms1 factor) (.fin cfg.players.length)))
    let res2 := dictSet res1 c2.name
      (EF.add (dictGet res1 c2.name)
        (EF.div (EF.mul r.ms2 factor) (.fin cfg.players.length)))
    (st.1 + 1, res2)) ((0, []) : Nat × List (String × EF))).2

/-- **C7, counterexample.**  With two *distinct* constructors that share the
display name `"X"` (one plays strategy 0, the other strategy 1), the code
halves the cross pair `(ctorA, ctorB)` as well — its halving test is name
equality — and produces `13/4`, while the claim's rule (halve exactly the
self-pairs) produces `9/2`. -/
theorem c7_counterexample :
    dictGet (run cfg7ex).results "X" = .fin (13/4)
    ∧ dictGet (specResultsSelfPair cfg7ex) "X" = .fin (9/2)
    ∧ EF.fin (13/4) ≠ EF.fin (9/2) := by
  refine ⟨?_, ?_, by norm_num⟩
  · norm_num [run, cfg7ex, cwr, matchStep, runMatch, gameStep, runReps,
      repStep, play, ctorA, ctorB, G3, get_payoff, validDecision, nullB,
      List.enum, List.enumFrom, dictGet, dictSet, EF.add, EF.mul, EF.div,
      List.range_succ, List.foldl_cons, List.foldl_nil]
  · norm_num [specResultsSelfPair, cfg7ex, cwr, runMatch, gameStep, runReps,
      repStep, play, ctorA, ctorB, G3, get_payoff, validDecision,
      List.enum, List.enumFrom, dictGet, dictSet, EF.add, EF.mul, EF.div,
      List.range_succ, List.foldl_cons, List.foldl_nil]

/-- Witness for the amended C7 at the concrete two-constructor
configuration. -/
theorem c7_witness :
    dictGet (run cfg7ex).results "X"
      = specNameScore cfg7ex.games cfg7ex.reps cfg7ex.players.length "X"
          (cwr cfg7ex.players) 0 (.fin 0) :=
  c7_name_keyed_halving Unit cfg7ex (List.cons_ne_nil G3 []) "X"

/-! ## Claim C8 — the all-null-players tournament -/

theorem EF.add_fin_zero (x : EF) : EF.add x (.fin 0) = x := by
  cases x <;> simp [EF.add]

/-- For two null players the play is deterministic: both play
`Decision(0, 0)` and receive payoff `3`. -/
theorem play_null (s1 s2 : Unit) :
    play G3 nullB s1 nullB s2
      = .ok (Result.mk ⟨0, 0⟩ (.fin 3) ⟨0, 0⟩ (.fin 3)) () () := rfl

theorem repStep_null (r : Nat) (acc : RepAcc Unit) (rep : Nat) :
    repStep G3 nullB nullB "null" "null" 0 r acc rep
      = { acc with
          s1 := ()
          s2 := ()
          sc1 := EF.add acc.sc1 (EF.div (.fin 3) (.fin r))
          sc2 := EF.add acc.sc2 (EF.div (.fin 3) (.fin r))
          rlogs := acc.rlogs ++
            [⟨0, rep, "null", 0, 0, .fin 3, "null", 0, 0, .fin 3⟩] } := by
  simp [repStep, play_null acc.s1 acc.s2]

/-- Over `r ≥ 1` replicates each null player's game score is exactly `3`:
`r` contributions of `3/r`. -/
theorem runReps_null_score (r : Nat) (hr : 1 ≤ r) :
    (runReps G3 nullB nullB "null" "null" 0 r () ()).sc1 = .fin 3
    ∧ (runReps G3 nullB nullB "null" "null" 0 r () ()).sc2 = .fin 3 := by
  have hrq : (r : ℚ) ≠ 0 := Nat.cast_ne_zero.mpr (by omega)
  have hdiv : EF.div (.fin 3) (.fin (r : ℚ)) = .fin (3 / r) := by
    simp [EF.div, hrq]
  have key : ∀ (l : List Nat) (acc : RepAcc Unit),
      (l.foldl (repStep G3 nullB nullB "null" "null" 0 r) acc).sc1
          = EF.add acc.sc1 (.fin (l.length * (3 / r)))
      ∧ (l.foldl (repStep G3 nullB nullB "null" "null" 0 r) acc).sc2
          = EF.add acc.sc2 (.fin (l.length * (3 / r))) := by
    intro l
    induction l with
    | nil =>
      intro acc
      simp [EF.add_fin_zero]
    | cons a l ih =>
      intro acc
      simp only [List.foldl_cons, repStep_null, hdiv]
      obtain ⟨ih1, ih2⟩ := ih { acc with
        s1 := ()
        s2 := ()
        sc1 := EF.add acc.sc1 (.fin (3 / r))
        sc2 := EF.add acc.sc2 (.fin (3 / r))
        rlogs := acc.rlogs ++
          [⟨0, a, "null", 0, 0, .fin 3, "null", 0, 0, .fin 3⟩] }
      rw [ih1, ih2]
      simp only [EF.add_fin_fin, List.length_cons]
      constructor <;> · congr 1; push_cast; ring
  obtain ⟨k1, k2⟩ := key (List.range r) ⟨(), (), .fin 0, .fin 0, [], []⟩
  rw [runReps, k1, k2]
  have h3 : ((List.range r).length : ℚ) * (3 / r) = 3 := by
    rw [List.length_range]
    field_simp
  rw [h3]
  constructor <;> simp [EF.add]

/-- A null-vs-null match on the single game `G3` scores `3` per side for any
replicate draw `≥ 1`. -/
theorem runMatch_null (r : Nat) (hr : 1 ≤ r) (repf : Nat → Nat)
    (hrepf : repf 0 = r) :
    (runMatch nullCtor nullCtor [G3] repf).ms1 = .fin 3
    ∧ (runMatch nullCtor nullCtor [G3] repf).ms2 = .fin 3 := by
  have henum : ([G3] : List Designs).enum = [(0, G3)] := rfl
  obtain ⟨h1, h2⟩ := runReps_null_score r hr
  simp only [runMatch, henum, List.foldl_cons, List.foldl_nil, gameStep,
    nullCtor, hrepf, List.length_cons, List.length_nil]
  rw [h1, h2]
  have : EF.div (.fin 3) (.fin (1 : Nat)) = .fin 3 := by
    norm_num [EF.div]
  rw [this]
  constructor <;> simp [EF.add]

/-- Across an all-null match list every match deposits `3/n` into the
`"null"` bucket (two halved sides of `3·(1/2)/n` each). -/
theorem c8fold (n r : Nat) (hn : 1 ≤ n) (hr : 1 ≤ r) :
    ∀ (pairs : List (PlayerCtor Unit × PlayerCtor Unit)),
      (∀ p ∈ pairs, p = (nullCtor, nullCtor)) →
      ∀ (acc : RunAcc) (v : ℚ), dictGet acc.results "null" = .fin v →
      dictGet ((pairs.foldl (matchStep [G3] (fun _ _ => r) n) acc).results)
          "null"
        = .fin (v + pairs.length * (3 / n)) := by
  have hnq : (n : ℚ) ≠ 0 := Nat.cast_ne_zero.mpr (by omega)
  have hu : EF.div (EF.mul (.fin 3) (.fin (1/2))) (.fin (n : ℚ))
      = .fin (3/2/n) := by
    norm_num [EF.mul, EF.div, hnq]
  intro pairs
  induction pairs with
  | nil =>
    intro _ acc v hv
    simp only [List.foldl_nil, List.length_nil, hv]
    norm_num
  | cons p ps ih =>
    intro hall acc v hv
    have hp : p = (nullCtor, nullCtor) := hall p (List.mem_cons_self p ps)
    have hall2 : ∀ q ∈ ps, q = (nullCtor, nullCtor) :=
      fun q hq => hall q (List.mem_cons_of_mem p hq)
    simp only [List.foldl_cons, hp]
    obtain ⟨hm1, hm2⟩ := runMatch_null r hr (fun _ => r) rfl
    have hname : nullCtor.name = "null" := rfl
    have hstep : dictGet ((matchStep [G3] (fun _ _ => r) n acc
        (nullCtor, nullCtor)).results) "null" = .fin (v + 3 / n) := by
      simp only [matchStep, hm1, hm2, eq_self_iff_true, if_true, hu, hname]
      rw [dictGet_dictSet_self, dictGet_dictSet_self, hv]
      simp only [EF.add]
      congr 1
      ring
    rw [ih hall2 _ (v + 3 / n) hstep]
    congr 1
    simp only [List.length_cons]
    push_cast
    ring

/-- Each self-pair appears exactly once in the round-robin enumeration of a
duplicate-free index list. -/
theorem cwr_count_selfpair : ∀ (l : List Nat), l.Nodup → ∀ i ∈ l,
    (cwr l).count (i, i) = 1 := by
  intro l
  induction l with
  | nil => intro _ i hi; cases hi
  | cons x xs ih =>
    intro hnd i hi
    have hndx : x ∉ xs := (List.nodup_cons.mp hnd).1
    have hndxs : xs.Nodup := (List.nodup_cons.mp hnd).2
    rw [cwr, List.count_append]
    rcases List.mem_cons.mp hi with heq | hi
    · rw [heq]
      have hblock : ((x :: xs).map (fun y => (x, y))).count (x, x) = 1 := by
        simp only [List.map_cons, List.count_cons_self]
        have h0 : ((xs.map (fun y => ((x, y) : Nat × Nat))).count (x, x)) = 0 := by
          refine List.count_eq_zero.mpr fun hmem => ?_
          rcases List.mem_map.mp hmem with ⟨y, hy, hxy⟩
          have hyx : y = x := by
            have := congrArg Prod.snd hxy
            simpa using this
          exact hndx (hyx ▸ hy)
        rw [h0]
      have htail : (cwr xs).count (x, x) = 0 := by
        refine List.count_eq_zero.mpr fun hmem => ?_
        exact hndx (cwr_mem xs (x, x) hmem).1
      omega
    · have hix : i ≠ x := fun h => hndx (h ▸ hi)
      have hblock : ((x :: xs).map (fun y => (x, y))).count (i, i) = 0 := by
        refine List.count_eq_zero.mpr fun hmem => ?_
        rcases List.mem_map.mp hmem with ⟨y, _, hy⟩
        have : x = i := congrArg Prod.fst hy
        exact hix this.symm
      have htail : (cwr xs).count (i, i) = 1 := ih hndxs i hi
      omega

/-- `cwr` commutes with `map`. -/
theorem cwr_map (f : α → β) : ∀ l : List α,
    cwr (l.map f) = (cwr l).map (Prod.map f f) := by
  intro l
  induction l with
  | nil => rfl
  | cons x xs ih =>
    simp only [List.map_cons, cwr, List.map_append, ih]
    congr 1
    simp [List.map_map, Function.comp_def, Prod.map]

/-- **C8, counterexample.**  For `N = 2` same-named null players, one game
`[[[3,0],[5,1]]]` and one replicate, the shared `"null"` bucket holds
`9/2`, not the claimed `3.0`: every one of the three matches is halved
(names are equal) and deposits `3/2` into the single shared bucket. -/
theorem c8_counterexample :
    dictGet (run (c8cfg 2 1)).results "null" = .fin (9/2)
    ∧ EF.fin (9/2) ≠ EF.fin 3 := by
  refine ⟨?_, by norm_num⟩
  norm_num [run, c8cfg, cwr, List.replicate, matchStep, runMatch, gameStep,
    runReps, repStep, play, nullCtor, nullB, G3, get_payoff, validDecision,
    List.enum, List.enumFrom, dictGet, dictSet, EF.add, EF.mul, EF.div,
    List.range_succ, List.foldl_cons, List.foldl_nil]

/-- **C8, amended.**  For every `N ≥ 1` null players sharing the display
name `"null"`, one game `[[[3,0],[5,1]]]` and any fixed replicate count
`≥ 1`: the round-robin enumeration is the image of the index pairs
`cwr (range N)`, in which each self-pair `(i, i)` occurs exactly once, and
the score of the shared name is `3·(N+1)/2` — which equals the claimed
`3.0` only for `N = 1`, because the name-keyed halving halves *every*
match of the same-named pool while merging all `2·(matches)` role
contributions into one bucket. -/
theorem c8_null_tournament (n r : Nat) (hn : 1 ≤ n) (hr : 1 ≤ r) :
    cwr (c8cfg n r).players
      = (cwr (List.range n)).map (fun _ => (nullCtor, nullCtor))
    ∧ (∀ i < n, (cwr (List.range n)).count (i, i) = 1)
    ∧ dictGet (run (c8cfg n r)).results "null"
      = .fin (3 * (n + 1) / 2) := by
  have hplayers : (c8cfg n r).players
      = (List.range n).map (fun _ => nullCtor) := by
    simp [c8cfg, List.map_const']
  refine ⟨?_, ?_, ?_⟩
  · rw [hplayers, cwr_map]
    apply List.map_congr_left
    intro p hp
    rfl
  · intro i hi
    exact cwr_count_selfpair (List.range n) (List.nodup_range n) i
      (List.mem_range.mpr hi)
  · have hall : ∀ p ∈ cwr (c8cfg n r).players, p = (nullCtor, nullCtor) := by
      intro p hp
      exact cwr_replicate_mem nullCtor n p hp
    have hlen2 : 2 * (cwr (c8cfg n r).players).length = n * (n + 1) := by
      have := cwr_length (c8cfg n r).players
      simpa [c8cfg] using this
    have hN : (c8cfg n r).players.length = n := by simp [c8cfg]
    have hrun := c8fold n r hn hr (cwr (c8cfg n r).players) hall
      ⟨0, [], [], [], [], []⟩ 0 rfl
    have hrun2 : dictGet (run (c8cfg n r)).results "null"
        = .fin (0 + (cwr (c8cfg n r).players).length * (3 / n)) := by
      have hunfold : run (c8cfg n r)
          = (cwr (c8cfg n r).players).foldl
              (matchStep [G3] (fun _ _ => r) (c8cfg n r).players.length)
              ⟨0, [], [], [], [], []⟩ := rfl
      rw [hunfold, hN]
      exact hrun
    rw [hrun2]
    congr 1
    have hcast : ((cwr (c8cfg n r).players).length : ℚ) = n * (n + 1) / 2 := by
      have h2 : (2 : ℚ) * ((cwr (c8cfg n r).players).length : ℚ)
          = (n : ℚ) * ((n : ℚ) + 1) := by
        exact_mod_cast hlen2
      linarith
    rw [hcast]
    have hnq : (n : ℚ) ≠ 0 := Nat.cast_ne_zero.mpr (by omega)
    field_simp
    ring

/-- Witness for the amended C8 at `N = 1`, `num_reps = 2` (score `3`). -/
theorem c8_witness :
    cwr (c8cfg 1 2).players
      = (cwr (List.range 1)).map (fun _ => (nullCtor, nullCtor))
    ∧ (∀ i < 1, (cwr (List.range 1)).count (i, i) = 1)
    ∧ dictGet (run (c8cfg 1 2)).results "null"
      = .fin (3 * (1 + 1) / 2) :=
  c8_null_tournament 1 2 (by decide) (by decide)
